import Mathlib

/-! LayerStyles: grayscale dilation, erosion, distance map and the blur/dilate split.

A shallow embedding of `vf_LayerStyles.h` (class `LayerStyles`).

Modelling conventions.

* A C++ `int` is a Lean `Int`.  Signed overflow is undefined behaviour in C++, so the
  definitions describe the executions in which no intermediate value leaves the `int` range.
  The functor of `DistanceMap`, whose product `distance * 256` leaves that range for sizes
  whose `size * 256` does not, is given with 32-bit wrap-around arithmetic (`new32`,
  `value32`, `call32`).
* A pixel field (`In`, `Out`, `Map2D <int>`) is a function from coordinates to cell values;
  an assignment `dest (x, y) = v` is `Field.write`.
* A `float` or `double` value is the rational number it stands for.  The constructor of
  `BoxBlurAndDilateSettings` is given as the source computes it (`newIeee`, `fudgeIeee`), every
  operation being rounded to nearest, ties to even, in the type in which the source carries
  it out (no excess precision, no fused multiply-add), and a second time in exact arithmetic
  (`new`, `fudge`, `blurPixels`), the decimal literals being read as exact decimals.
* `DistanceTransform::Chamfer` is declared elsewhere in VFLib.  It is a parameter of the
  three transforms: a function from the input field and the dimensions to the sequence of
  calls `(x, y, distance)` it makes on the output functor it is handed.
-/

namespace LayerStyles

/-- A two dimensional field of cells addressed by `(x, y)`. -/
abbrev Field := Int → Int → Int

/-- The assignment `dest (x, y) = v`. -/
def Field.write (dest : Field) (x y v : Int) : Field :=
  fun a b => if a = x ∧ b = y then v else dest a b

/-- The loop `for (int i = 0; i < n; ++i) body`, threading the state through the body. -/
def forLoop {σ : Type} (n : Int) (body : Int → σ → σ) (s : σ) : σ :=
  (List.range n.toNat).foldl (fun acc i => body (Int.ofNat i) acc) s

/-- The conversion `int (q)` of a floating point value: truncation toward zero. -/
def toInt (q : ℚ) : Int :=
  Int.tdiv q.num (Int.ofNat q.den)

/-- Rounding of a rational to the nearest integer, a tie going to the even neighbour. -/
def roundHalfEven (x : ℚ) : Int :=
  if x - ⌊x⌋ < 1 / 2 then ⌊x⌋
  else if 1 / 2 < x - ⌊x⌋ then ⌊x⌋ + 1
  else if ⌊x⌋ % 2 = 0 then ⌊x⌋
  else ⌊x⌋ + 1

/-- The exponent of the binade in which a binary floating point format whose smallest normal
exponent is `emin` holds `q`: the binary logarithm of `|q|`, or `emin` for the subnormal
values. -/
def binaryExponent (emin : Int) (q : ℚ) : Int :=
  max (Int.log 2 |q|) emin

/-- The value a binary floating point format with `p` significand bits and smallest normal
exponent `emin` holds for the exact result `q`, in the default rounding mode of IEEE 754
(to nearest, ties to even): `q` is rounded to a multiple of the unit in the last place of
its binade.  Overflow to infinity is not represented. -/
def roundBinary (p : Nat) (emin : Int) (q : ℚ) : ℚ :=
  (roundHalfEven (q / (2 : ℚ) ^ (binaryExponent emin q - ((p : Int) - 1))) : ℚ)
    * (2 : ℚ) ^ (binaryExponent emin q - ((p : Int) - 1))

/-- The `double` (IEEE 754 binary64) nearest to `q`. -/
def roundDouble (q : ℚ) : ℚ :=
  roundBinary 53 (-1022) q

/-- The `float` (IEEE 754 binary32) nearest to `q`. -/
def roundFloat (q : ℚ) : ℚ :=
  roundBinary 24 (-126) q

/-- The distance transform `DistanceTransform::Chamfer`, as seen by its caller: from the input
field, the width and the height, the calls `(x, y, distance)` it makes on the output functor,
in the order in which it makes them. -/
abbrev DistanceTransform := Field → Int → Int → List (Int × Int × Int)

/-! ## BoxBlurAndDilateSettings -/

/-- The two members of `BoxBlurAndDilateSettings`. -/
structure BoxBlurAndDilateSettings where
  m_dilatePixels : Int
  m_boxBlurRadius : ℚ

namespace BoxBlurAndDilateSettings

/-- The local `blurPixels = sizeInPixels - m_dilatePixels` of the constructor, in exact
arithmetic. -/
def blurPixels (sizeInPixels : Int) (spread : ℚ) : Int :=
  sizeInPixels - toInt ((sizeInPixels : ℚ) * spread + 1 / 2)

/-- The local `fudge = 1.85f - 0.45f * std::min (1.0f, blurPixels / 10.f)` of the
constructor, as a function of `blurPixels`, in exact arithmetic: the literals are the
decimals `1.85` and `0.45` and no operation rounds. -/
def fudge (blurPixels : Int) : ℚ :=
  185 / 100 - 45 / 100 * min 1 ((blurPixels : ℚ) / 10)

/-- The local `fudge = 1.85f - 0.45f * std::min (1.0f, blurPixels / 10.f)` of the
constructor, as a function of `blurPixels`, as the source computes it: every operand is a
`float`, so the two literals, the conversion of `blurPixels`, the quotient, the product and
the difference are each rounded to `float`. -/
def fudgeIeee (blurPixels : Int) : ℚ :=
  roundFloat (roundFloat (185 / 100)
    - roundFloat (roundFloat (45 / 100)
        * min 1 (roundFloat (roundFloat (blurPixels : ℚ) / 10))))

/-- The constructor `BoxBlurAndDilateSettings (int sizeInPixels, double spread)` as the
source computes it, `spread` being the exact value of the `double` passed: the product
`sizeInPixels * spread` and the sum with `0.5` are rounded to `double`, the fudge factor is
computed in `float`, the difference `blurPixels - fudge` is rounded to `double` and the
maximum is rounded to `float` when it is stored in `m_boxBlurRadius`. -/
def newIeee (sizeInPixels : Int) (spread : ℚ) : BoxBlurAndDilateSettings :=
  let m_dilatePixels := toInt (roundDouble (roundDouble ((sizeInPixels : ℚ) * spread) + 1 / 2))
  let blurPixels := sizeInPixels - m_dilatePixels
  let fudge : ℚ := roundFloat (roundFloat (185 / 100)
    - roundFloat (roundFloat (45 / 100)
        * min 1 (roundFloat (roundFloat (blurPixels : ℚ) / 10))))
  { m_dilatePixels := m_dilatePixels
    m_boxBlurRadius := roundFloat (max (roundDouble ((blurPixels : ℚ) - fudge)) 0) }

/-- The constructor `BoxBlurAndDilateSettings (int sizeInPixels, double spread)` in exact
arithmetic: the same expressions with the literals read as exact decimals and no operation
rounded. -/
def new (sizeInPixels : Int) (spread : ℚ) : BoxBlurAndDilateSettings :=
  let m_dilatePixels := toInt ((sizeInPixels : ℚ) * spread + 1 / 2)
  let blurPixels := sizeInPixels - m_dilatePixels
  let fudge : ℚ := 185 / 100 - 45 / 100 * min 1 ((blurPixels : ℚ) / 10)
  { m_dilatePixels := m_dilatePixels
    m_boxBlurRadius := max ((blurPixels : ℚ) - fudge) 0 }

/-- The accessor `getDilatePixels`. -/
def getDilatePixels (s : BoxBlurAndDilateSettings) : Int :=
  s.m_dilatePixels

/-- The accessor `getBoxBlurRadius`. -/
def getBoxBlurRadius (s : BoxBlurAndDilateSettings) : ℚ :=
  s.m_boxBlurRadius

end BoxBlurAndDilateSettings

/-! ## GrayscaleDilation -/

namespace GrayscaleDilation

/-- The functor `GrayscaleDilation::Output`. -/
structure Output where
  m_dest : Field
  m_size : Int
  m_sizePlusOne : Int

namespace Output

/-- The constructor `Output (Map2D <int> dest, int size)`. -/
def new (dest : Field) (size : Int) : Output :=
  { m_dest := dest
    m_size := size * 256
    m_sizePlusOne := size * 256 + 256 }

/-- The value `operator ()` assigns to `m_dest (x, y)` for a given `distance`. -/
def value (o : Output) (distance : Int) : Int :=
  if distance ≤ o.m_size then 255 * 256
  else if distance < o.m_sizePlusOne then (255 - (distance - o.m_size)) * 256
  else 0

/-- The call `operator () (int x, int y, T distance)`. -/
def call (o : Output) (x y distance : Int) : Output :=
  { o with m_dest := o.m_dest.write x y (o.value distance) }

end Output

/-- The call `GrayscaleDilation::operator () (in, out, width, height, size)`; the result is
the content of `out` afterwards. -/
def run (chamfer : DistanceTransform) (inp : Field) (out : Field)
    (width height size : Int) : Field :=
  if size > 0 then
    ((chamfer inp width height).foldl
      (fun o c => o.call c.1 c.2.1 c.2.2) (Output.new out size)).m_dest
  else
    forLoop height (fun y o => forLoop width (fun x o => o.write x y (inp x y * 256)) o) out

end GrayscaleDilation

/-! ## GrayscaleErosion -/

namespace GrayscaleErosion

/-- The functor `GrayscaleErosion::Input`, applied: `operator() (x, y)` on an `Input`
built from `src`. -/
def Input (src : Field) : Field :=
  fun x y => 255 - src x y

/-- The functor `GrayscaleErosion::Output`. -/
structure Output where
  m_dest : Field
  m_size : Int
  m_sizePlusOne : Int

namespace Output

/-- The constructor `Output (Map2D <int> dest, int size)`. -/
def new (dest : Field) (size : Int) : Output :=
  { m_dest := dest
    m_size := size * 256
    m_sizePlusOne := size * 256 + 256 }

/-- The value `operator ()` assigns to `m_dest (x, y)` for a given `distance`. -/
def value (o : Output) (distance : Int) : Int :=
  if distance ≤ o.m_size then 255 * 256
  else if distance < o.m_sizePlusOne then (255 - (distance - o.m_size)) * 256
  else 0

/-- The call `operator () (int x, int y, T distance)`. -/
def call (o : Output) (x y distance : Int) : Output :=
  { o with m_dest := o.m_dest.write x y (o.value distance) }

end Output

/-- The call `GrayscaleErosion::operator () (in, out, width, height, size)`; the result is
the content of `out` afterwards. -/
def run (chamfer : DistanceTransform) (inp : Field) (out : Field)
    (width height size : Int) : Field :=
  if size > 0 then
    ((chamfer (Input inp) width height).foldl
      (fun o c => o.call c.1 c.2.1 c.2.2) (Output.new out size)).m_dest
  else
    forLoop height (fun y o => forLoop width (fun x o => o.write x y ((255 - inp x y) * 256)) o) out

end GrayscaleErosion

/-! ## DistanceMap

The functor of `DistanceMap` multiplies the raw distance by 256 before it divides, and that
product leaves the range of a 32-bit `int` from `size = 32768` on, where `size * 256` itself
is still in range.  The functor is therefore given with 32-bit arithmetic (`new32`, `value32`,
`call32`), which is what `run` uses, and a second time with exact integers (`new`, `value`,
`call`), the values with which the 32-bit results are compared. -/

/-- The 32-bit two's complement value of an integer: the representative of its class modulo
`2^32` that lies in `[-2^31, 2^31)`. -/
def wrap32 (z : Int) : Int :=
  (z + 2147483648) % 4294967296 - 2147483648

namespace DistanceMap

/-- The functor `DistanceMap::Output`. -/
structure Output where
  m_dest : Field
  m_size : Int
  m_sizePlusOne : Int

namespace Output

/-- The constructor `Output (T dest, int size)` in 32-bit arithmetic. -/
def new32 (dest : Field) (size : Int) : Output :=
  { m_dest := dest
    m_size := wrap32 (size * 256)
    m_sizePlusOne := wrap32 (wrap32 (size * 256) + 256) }

/-- The value `operator ()` assigns to `m_dest (x, y)` in 32-bit arithmetic; the division is
the `int` division of C++, which truncates toward zero. -/
def value32 (o : Output) (distance : Int) : Int :=
  if distance ≤ o.m_size then wrap32 (Int.tdiv (wrap32 (distance * 256)) o.m_size)
  else 0

/-- The call `operator () (int x, int y, T distance)` in 32-bit arithmetic. -/
def call32 (o : Output) (x y distance : Int) : Output :=
  { o with m_dest := o.m_dest.write x y (o.value32 distance) }

/-- The constructor `Output (T dest, int size)` with exact integers. -/
def new (dest : Field) (size : Int) : Output :=
  { m_dest := dest
    m_size := size * 256
    m_sizePlusOne := size * 256 + 256 }

/-- The value `operator ()` would assign to `m_dest (x, y)` with exact integers. -/
def value (o : Output) (distance : Int) : Int :=
  if distance ≤ o.m_size then Int.tdiv (distance * 256) o.m_size
  else 0

/-- The call `operator () (int x, int y, T distance)` with exact integers. -/
def call (o : Output) (x y distance : Int) : Output :=
  { o with m_dest := o.m_dest.write x y (o.value distance) }

end Output

/-- The call `DistanceMap::operator () (in, out, width, height, size)`; the result is the
content of `out` afterwards. -/
def run (chamfer : DistanceTransform) (inp : Field) (out : Field)
    (width height size : Int) : Field :=
  if size > 0 then
    ((chamfer inp width height).foldl
      (fun o c => o.call32 c.1 c.2.1 c.2.2) (Output.new32 out size)).m_dest
  else
    forLoop height (fun y o => forLoop width (fun x o => o.write x y (inp x y * 256)) o) out

end DistanceMap

/-! ## Fixtures for concrete evaluation -/

/-- The pixels `(x, y)` of the `width` x `height` rectangle, row by row. -/
def rect (width height : Int) : List (Int × Int) :=
  (List.range height.toNat).flatMap fun y =>
    (List.range width.toNat).map fun x => (Int.ofNat x, Int.ofNat y)

/-- A stand-in for the distance transform that visits the pixels of the rectangle row by row
and reports the distance `0` for each of them. -/
def zeroDistance : DistanceTransform :=
  fun _ width height => (rect width height).map fun p => (p.1, p.2, 0)

/-- A stand-in for the distance transform, used to evaluate the transforms on concrete
inputs: it visits the pixels of the rectangle row by row and reports, as the distance of a
pixel, the value it samples from the input field there. -/
def probe : DistanceTransform :=
  fun inp width height =>
    (List.range height.toNat).flatMap fun y =>
      (List.range width.toNat).map fun x =>
        (Int.ofNat x, Int.ofNat y, inp (Int.ofNat x) (Int.ofNat y))

/-- The field that is `0` everywhere. -/
def blank : Field :=
  fun _ _ => 0

/-- The 2x2 buffer `[[0,128],[255,64]]`, row `y` being the `y`-th inner list. -/
def sample2x2 : Field :=
  fun x y =>
    if x = 0 ∧ y = 0 then 0
    else if x = 1 ∧ y = 0 then 128
    else if x = 0 ∧ y = 1 then 255
    else if x = 1 ∧ y = 1 then 64
    else 0

/-! ## Auxiliary lemmas -/

theorem Field.write_same (dest : Field) (x y v : Int) : dest.write x y v x y = v := by
  simp [Field.write]

theorem Field.write_other (dest : Field) (x y v a b : Int) (h : ¬ (a = x ∧ b = y)) :
    dest.write x y v a b = dest a b := by
  simp [Field.write, h]

/-- A fold of steps that each overwrite the cells selected by `P i` with the values of one
fixed field `g` yields `g` on the cells some step selects. -/
theorem foldl_overwrite_hit {ι : Type} (P : ι → Int → Int → Prop) (g : Field)
    (step : ι → Field → Field)
    (hhit : ∀ i acc a b, P i a b → step i acc a b = g a b)
    (hmiss : ∀ i acc a b, ¬ P i a b → step i acc a b = acc a b)
    (l : List ι) (out : Field) (a b : Int) (h : ∃ i ∈ l, P i a b) :
    l.foldl (fun acc i => step i acc) out a b = g a b := by
  induction l using List.reverseRecOn with
  | nil => simp at h
  | append_singleton l i ih =>
    rw [List.foldl_append]
    simp only [List.foldl_cons, List.foldl_nil]
    by_cases hi : P i a b
    · exact hhit i _ a b hi
    · rw [hmiss i _ a b hi]
      apply ih
      obtain ⟨j, hj, hp⟩ := h
      rcases List.mem_append.mp hj with hj | hj
      · exact ⟨j, hj, hp⟩
      · simp only [List.mem_singleton] at hj
        subst hj
        exact absurd hp hi

/-- A fold of overwriting steps leaves the cells no step selects as they were. -/
theorem foldl_overwrite_miss {ι : Type} (P : ι → Int → Int → Prop)
    (step : ι → Field → Field)
    (hmiss : ∀ i acc a b, ¬ P i a b → step i acc a b = acc a b)
    (l : List ι) (out : Field) (a b : Int) (h : ¬ ∃ i ∈ l, P i a b) :
    l.foldl (fun acc i => step i acc) out a b = out a b := by
  induction l generalizing out with
  | nil => rfl
  | cons i l ih =>
    simp only [List.foldl_cons]
    rw [ih]
    · apply hmiss
      intro hp
      exact h ⟨i, List.mem_cons_self _ _, hp⟩
    · rintro ⟨j, hj, hp⟩
      exact h ⟨j, List.mem_cons_of_mem _ hj, hp⟩

/-- The indices a `forLoop` visits. -/
theorem mem_range_toNat (n a : Int) :
    (∃ i ∈ List.range n.toNat, Int.ofNat i = a) ↔ 0 ≤ a ∧ a < n := by
  constructor
  · rintro ⟨i, hi, rfl⟩
    rw [List.mem_range] at hi
    simp only [Int.ofNat_eq_coe]
    omega
  · rintro ⟨h0, h1⟩
    refine ⟨a.toNat, ?_, ?_⟩
    · rw [List.mem_range]
      omega
    · simp only [Int.ofNat_eq_coe]
      omega

/-- Inside the rectangle, the two nested loops of the `size == 0` branches leave `g (x, y)`
in the cell `(x, y)`. -/
theorem scaleLoop_inside (g : Field) (out : Field) (width height x y : Int)
    (hx0 : 0 ≤ x) (hx1 : x < width) (hy0 : 0 ≤ y) (hy1 : y < height) :
    forLoop height (fun j o => forLoop width (fun i o => o.write i j (g i j)) o) out x y
      = g x y := by
  unfold forLoop
  apply foldl_overwrite_hit (fun (j : Nat) a b => b = Int.ofNat j ∧ 0 ≤ a ∧ a < width) g
    (fun (j : Nat) acc =>
      (List.range width.toNat).foldl (fun acc i => acc.write (Int.ofNat i) (Int.ofNat j)
        (g (Int.ofNat i) (Int.ofNat j))) acc)
  · rintro j acc a b ⟨rfl, ha0, ha1⟩
    apply foldl_overwrite_hit (fun (i : Nat) a b => a = Int.ofNat i ∧ b = Int.ofNat j) g
      (fun (i : Nat) acc => acc.write (Int.ofNat i) (Int.ofNat j)
        (g (Int.ofNat i) (Int.ofNat j)))
    · rintro i acc a b ⟨rfl, rfl⟩
      exact Field.write_same _ _ _ _
    · intro i acc a b h
      exact Field.write_other _ _ _ _ _ _ h
    · obtain ⟨i, hi, rfl⟩ := (mem_range_toNat width a).mpr ⟨ha0, ha1⟩
      exact ⟨i, hi, rfl, rfl⟩
  · intro j acc a b h
    apply foldl_overwrite_miss (fun (i : Nat) a b => a = Int.ofNat i ∧ b = Int.ofNat j)
      (fun (i : Nat) acc => acc.write (Int.ofNat i) (Int.ofNat j)
        (g (Int.ofNat i) (Int.ofNat j)))
    · intro i acc a b h
      exact Field.write_other _ _ _ _ _ _ h
    · rintro ⟨i, hi, rfl, rfl⟩
      apply h
      refine ⟨rfl, ?_⟩
      exact (mem_range_toNat width _).mp ⟨i, hi, rfl⟩
  · obtain ⟨j, hj, rfl⟩ := (mem_range_toNat height y).mpr ⟨hy0, hy1⟩
    exact ⟨j, hj, rfl, hx0, hx1⟩

/-- The two `Output` functors of dilation and erosion, fed the same calls from the same
state, leave the same destination. -/
theorem foldl_call_dest_eq (l : List (Int × Int × Int))
    (oE : GrayscaleErosion.Output) (oD : GrayscaleDilation.Output)
    (hd : oE.m_dest = oD.m_dest) (hs : oE.m_size = oD.m_size)
    (hp : oE.m_sizePlusOne = oD.m_sizePlusOne) :
    (l.foldl (fun o c => GrayscaleErosion.Output.call o c.1 c.2.1 c.2.2) oE).m_dest
      = (l.foldl (fun o c => GrayscaleDilation.Output.call o c.1 c.2.1 c.2.2) oD).m_dest := by
  induction l generalizing oE oD with
  | nil => exact hd
  | cons c l ih =>
    simp only [List.foldl_cons]
    apply ih
    · simp [GrayscaleErosion.Output.call, GrayscaleDilation.Output.call,
        GrayscaleErosion.Output.value, GrayscaleDilation.Output.value, hd, hs, hp]
    · simpa [GrayscaleErosion.Output.call, GrayscaleDilation.Output.call] using hs
    · simpa [GrayscaleErosion.Output.call, GrayscaleDilation.Output.call] using hp

/-- On a non-negative value the conversion `int (q)` is the floor. -/
theorem toInt_eq_floor (q : ℚ) (hq : 0 ≤ q) : toInt q = ⌊q⌋ := by
  have h : ⌊q⌋ = q.num / (q.den : Int) := Rat.floor_def' q
  rw [h]
  unfold toInt
  exact Int.tdiv_eq_ediv (Rat.num_nonneg.mpr hq) (Int.ofNat_nonneg _)

/-! ## Dilation and erosion: the transforms -/

/-- C1, as stated, fails: on the 2x2 buffer `[[0,128],[255,64]]` with `size == 0` the sum
`erode(in)(1,0) + dilate(complement(in))(1,0)` is `2 * 32512`, not `255*256`; and with
`size == 1` and a transform reporting the distance `0` at `(0,0)` the sum there is
`2 * 255*256`. -/
theorem erosion_dilation_duality_fails :
    GrayscaleErosion.run probe sample2x2 blank 2 2 0 1 0
        + GrayscaleDilation.run probe (fun x y => 255 - sample2x2 x y) blank 2 2 0 1 0
        ≠ 255 * 256
      ∧ GrayscaleErosion.run probe (fun x y => 255 - blank x y) blank 2 2 1 0 0
        + GrayscaleDilation.run probe (fun x y => 255 - (255 - blank x y)) blank 2 2 1 0 0
        ≠ 255 * 256 := by
  decide

/-- C1, amended: erosion applies no final complement, so at every cell
`erode(in, size) + dilate(complement(in), size)` is twice `dilate(complement(in), size)`;
the sum to `255*256` holds for `size == 0` against the dilation of the same input,
`erode(in, 0)(x,y) + dilate(in, 0)(x,y) = 255*256` at every pixel of the rectangle. -/
theorem erosion_plus_dilation_of_complement (chamfer : DistanceTransform) (inp out : Field)
    (width height size x y : Int) :
    GrayscaleErosion.run chamfer inp out width height size x y
        + GrayscaleDilation.run chamfer (fun a b => 255 - inp a b) out width height size x y
        = 2 * GrayscaleDilation.run chamfer (fun a b => 255 - inp a b) out width height size x y
      ∧ (0 ≤ x → x < width → 0 ≤ y → y < height →
          GrayscaleErosion.run chamfer inp out width height 0 x y
            + GrayscaleDilation.run chamfer inp out width height 0 x y = 255 * 256) := by
  constructor
  · have h : GrayscaleErosion.run chamfer inp out width height size
        = GrayscaleDilation.run chamfer (fun a b => 255 - inp a b) out width height size := by
      unfold GrayscaleErosion.run GrayscaleDilation.run
      split
      · exact foldl_call_dest_eq _ _ _ rfl rfl rfl
      · rfl
    rw [h]
    ring
  · intro hx0 hx1 hy0 hy1
    have hE : GrayscaleErosion.run chamfer inp out width height 0 x y
        = (255 - inp x y) * 256 := by
      simp only [GrayscaleErosion.run, gt_iff_lt, lt_self_iff_false, if_false]
      exact scaleLoop_inside (fun a b => (255 - inp a b) * 256) out width height x y
        hx0 hx1 hy0 hy1
    have hD : GrayscaleDilation.run chamfer inp out width height 0 x y = inp x y * 256 := by
      simp only [GrayscaleDilation.run, gt_iff_lt, lt_self_iff_false, if_false]
      exact scaleLoop_inside (fun a b => inp a b * 256) out width height x y hx0 hx1 hy0 hy1
    rw [hE, hD]
    ring

/-- The amended C1 on the 2x2 buffer `[[0,128],[255,64]]` at the pixel `(1,0)`. -/
theorem erosion_plus_dilation_of_complement_witness :
    GrayscaleErosion.run probe sample2x2 blank 2 2 1 1 0
        + GrayscaleDilation.run probe (fun a b => 255 - sample2x2 a b) blank 2 2 1 1 0
        = 2 * GrayscaleDilation.run probe (fun a b => 255 - sample2x2 a b) blank 2 2 1 1 0
      ∧ (0 : Int) ≤ 1 ∧ (1 : Int) < 2 ∧ (0 : Int) ≤ 0 ∧ (0 : Int) < 2
      ∧ GrayscaleErosion.run probe sample2x2 blank 2 2 0 1 0
          + GrayscaleDilation.run probe sample2x2 blank 2 2 0 1 0 = 255 * 256 :=
  ⟨(erosion_plus_dilation_of_complement probe sample2x2 blank 2 2 1 1 0).1,
    by decide, by decide, by decide, by decide,
    (erosion_plus_dilation_of_complement probe sample2x2 blank 2 2 1 1 0).2
      (by decide) (by decide) (by decide) (by decide)⟩

/-- C6: with `size == 0`, `GrayscaleDilation` leaves `in(x,y) * 256` in every cell `(x,y)` of
the `width` x `height` rectangle, whatever the distance transform is: the transform is not
consulted, the result being the same for any two of them. -/
theorem dilation_size_zero (chamfer : DistanceTransform) (inp out : Field)
    (width height x y : Int)
    (hx0 : 0 ≤ x) (hx1 : x < width) (hy0 : 0 ≤ y) (hy1 : y < height) :
    GrayscaleDilation.run chamfer inp out width height 0 x y = inp x y * 256
      ∧ ∀ other : DistanceTransform,
          GrayscaleDilation.run other inp out width height 0
            = GrayscaleDilation.run chamfer inp out width height 0 := by
  constructor
  · simp only [GrayscaleDilation.run, gt_iff_lt, lt_self_iff_false, if_false]
    exact scaleLoop_inside (fun a b => inp a b * 256) out width height x y hx0 hx1 hy0 hy1
  · intro other
    simp only [GrayscaleDilation.run, gt_iff_lt, lt_self_iff_false, if_false]

/-- C6 on the 2x2 buffer `[[0,128],[255,64]]`: the output is `[[0,32768],[65280,16384]]`. -/
theorem dilation_size_zero_witness :
    (0 : Int) ≤ 1 ∧ (1 : Int) < 2 ∧ (0 : Int) ≤ 0 ∧ (0 : Int) < 2
      ∧ GrayscaleDilation.run probe sample2x2 blank 2 2 0 0 0 = 0
      ∧ GrayscaleDilation.run probe sample2x2 blank 2 2 0 1 0 = 32768
      ∧ GrayscaleDilation.run probe sample2x2 blank 2 2 0 0 1 = 65280
      ∧ GrayscaleDilation.run probe sample2x2 blank 2 2 0 1 1 = 16384 :=
  ⟨by decide, by decide, by decide, by decide,
    (dilation_size_zero probe sample2x2 blank 2 2 0 0
      (by decide) (by decide) (by decide) (by decide)).1.trans (by decide),
    (dilation_size_zero probe sample2x2 blank 2 2 1 0
      (by decide) (by decide) (by decide) (by decide)).1.trans (by decide),
    (dilation_size_zero probe sample2x2 blank 2 2 0 1
      (by decide) (by decide) (by decide) (by decide)).1.trans (by decide),
    (dilation_size_zero probe sample2x2 blank 2 2 1 1
      (by decide) (by decide) (by decide) (by decide)).1.trans (by decide)⟩

/-- C7: with `size == 0`, `GrayscaleErosion` leaves `(255 - in(x,y)) * 256` in every cell
`(x,y)` of the `width` x `height` rectangle. -/
theorem erosion_size_zero (chamfer : DistanceTransform) (inp out : Field)
    (width height x y : Int)
    (hx0 : 0 ≤ x) (hx1 : x < width) (hy0 : 0 ≤ y) (hy1 : y < height) :
    GrayscaleErosion.run chamfer inp out width height 0 x y = (255 - inp x y) * 256 := by
  simp only [GrayscaleErosion.run, gt_iff_lt, lt_self_iff_false, if_false]
  exact scaleLoop_inside (fun a b => (255 - inp a b) * 256) out width height x y
    hx0 hx1 hy0 hy1

/-- C7 on the 2x2 buffer `[[0,128],[255,64]]`: the pixel `(1,0)` becomes `(255-128)*256`. -/
theorem erosion_size_zero_witness :
    (0 : Int) ≤ 1 ∧ (1 : Int) < 2 ∧ (0 : Int) ≤ 0 ∧ (0 : Int) < 2
      ∧ GrayscaleErosion.run probe sample2x2 blank 2 2 0 1 0 = 32512 :=
  ⟨by decide, by decide, by decide, by decide,
    (erosion_size_zero probe sample2x2 blank 2 2 1 0
      (by decide) (by decide) (by decide) (by decide)).trans (by decide)⟩

/-- C8: for every distance transform, input, destination, dimensions and size,
`GrayscaleErosion` on `in` leaves the destination exactly as `GrayscaleDilation` on the
complement field `255 - in` does. -/
theorem erosion_eq_dilation_of_complement (chamfer : DistanceTransform) (inp out : Field)
    (width height size : Int) :
    GrayscaleErosion.run chamfer inp out width height size
      = GrayscaleDilation.run chamfer (fun x y => 255 - inp x y) out width height size := by
  unfold GrayscaleErosion.run GrayscaleDilation.run
  split
  · exact foldl_call_dest_eq _ _ _ rfl rfl rfl
  · rfl

/-! ## Dilation and erosion: the output functor -/

/-- C2, as stated, fails: for `size == 1` and `distance == 257`, inside the fade band, both
functors write `254*256 = 65024`, while `(255 - (distance - size*256)/256) * 256` is
`65280` with the integer quotient and `65279` with the exact one. -/
theorem fade_formula_fails :
    (0 : Int) < 1 ∧ (1 : Int) * 256 < 257 ∧ (257 : Int) < (1 + 1) * 256
      ∧ ((GrayscaleDilation.Output.new blank 1).call 0 0 257).m_dest 0 0 = 65024
      ∧ ((GrayscaleErosion.Output.new blank 1).call 0 0 257).m_dest 0 0 = 65024
      ∧ ((GrayscaleDilation.Output.new blank 1).call 0 0 257).m_dest 0 0
          ≠ (255 - (257 - 1 * 256) / 256) * 256
      ∧ ((((GrayscaleDilation.Output.new blank 1).call 0 0 257).m_dest 0 0 : Int) : ℚ)
          ≠ (255 - ((257 : ℚ) - 1 * 256) / 256) * 256 := by
  have h : ((GrayscaleDilation.Output.new blank 1).call 0 0 257).m_dest 0 0 = 65024 := by
    decide
  refine ⟨by decide, by decide, by decide, h, by decide, by decide, ?_⟩
  rw [h]
  norm_num

/-- C2, amended: for `size > 0` and `size*256 < distance < (size+1)*256`, the dilation
functor and the erosion functor write `(255 - (distance - size*256)) * 256`: the excess over
`size*256` is subtracted as it is, not divided by 256. -/
theorem fade_band_value (dest : Field) (size x y distance : Int) (_hs : 0 < size)
    (h1 : size * 256 < distance) (h2 : distance < (size + 1) * 256) :
    ((GrayscaleDilation.Output.new dest size).call x y distance).m_dest x y
        = (255 - (distance - size * 256)) * 256
      ∧ ((GrayscaleErosion.Output.new dest size).call x y distance).m_dest x y
        = (255 - (distance - size * 256)) * 256 := by
  have h1n : ¬ distance ≤ size * 256 := by omega
  have h2n : distance < size * 256 + 256 := by omega
  constructor
  · simp [GrayscaleDilation.Output.call, GrayscaleDilation.Output.new,
      GrayscaleDilation.Output.value, Field.write, h1n, h2n]
  · simp [GrayscaleErosion.Output.call, GrayscaleErosion.Output.new,
      GrayscaleErosion.Output.value, Field.write, h1n, h2n]

/-- The amended C2 at `size == 1`, `distance == 257`: the value written is `65024`. -/
theorem fade_band_value_witness :
    (0 : Int) < 1 ∧ (1 : Int) * 256 < 257 ∧ (257 : Int) < (1 + 1) * 256
      ∧ ((GrayscaleDilation.Output.new blank 1).call 0 0 257).m_dest 0 0
          = (255 - (257 - 1 * 256)) * 256
      ∧ ((GrayscaleErosion.Output.new blank 1).call 0 0 257).m_dest 0 0
          = (255 - (257 - 1 * 256)) * 256 :=
  ⟨by decide, by decide, by decide,
    fade_band_value blank 1 0 0 257 (by decide) (by decide) (by decide)⟩

/-- C3: for `size > 0`, the dilation functor and the erosion functor write `255*256` when
`distance <= size*256` and `0` when `distance >= (size+1)*256`; the two thresholds they
hold are `size*256` and `(size+1)*256`, exactly 256 apart, and any other value is written
only for a distance strictly between them. -/
theorem inside_outside_values (dest : Field) (size x y distance : Int) (_hs : 0 < size) :
    (distance ≤ size * 256 →
        ((GrayscaleDilation.Output.new dest size).call x y distance).m_dest x y = 255 * 256
        ∧ ((GrayscaleErosion.Output.new dest size).call x y distance).m_dest x y = 255 * 256)
      ∧ ((size + 1) * 256 ≤ distance →
        ((GrayscaleDilation.Output.new dest size).call x y distance).m_dest x y = 0
        ∧ ((GrayscaleErosion.Output.new dest size).call x y distance).m_dest x y = 0)
      ∧ (GrayscaleDilation.Output.new dest size).m_size = size * 256
      ∧ (GrayscaleDilation.Output.new dest size).m_sizePlusOne = (size + 1) * 256
      ∧ (GrayscaleErosion.Output.new dest size).m_size = size * 256
      ∧ (GrayscaleErosion.Output.new dest size).m_sizePlusOne = (size + 1) * 256
      ∧ (GrayscaleDilation.Output.new dest size).m_sizePlusOne
          - (GrayscaleDilation.Output.new dest size).m_size = 256
      ∧ (GrayscaleErosion.Output.new dest size).m_sizePlusOne
          - (GrayscaleErosion.Output.new dest size).m_size = 256
      ∧ (((GrayscaleDilation.Output.new dest size).call x y distance).m_dest x y ≠ 255 * 256 →
          ((GrayscaleDilation.Output.new dest size).call x y distance).m_dest x y ≠ 0 →
          size * 256 < distance ∧ distance < size * 256 + 256)
      ∧ (((GrayscaleErosion.Output.new dest size).call x y distance).m_dest x y ≠ 255 * 256 →
          ((GrayscaleErosion.Output.new dest size).call x y distance).m_dest x y ≠ 0 →
          size * 256 < distance ∧ distance < size * 256 + 256) := by
  have hD : ((GrayscaleDilation.Output.new dest size).call x y distance).m_dest x y
      = if distance ≤ size * 256 then 255 * 256
        else if distance < size * 256 + 256 then (255 - (distance - size * 256)) * 256
        else 0 := by
    simp [GrayscaleDilation.Output.call, GrayscaleDilation.Output.new,
      GrayscaleDilation.Output.value, Field.write]
  have hE : ((GrayscaleErosion.Output.new dest size).call x y distance).m_dest x y
      = if distance ≤ size * 256 then 255 * 256
        else if distance < size * 256 + 256 then (255 - (distance - size * 256)) * 256
        else 0 := by
    simp [GrayscaleErosion.Output.call, GrayscaleErosion.Output.new,
      GrayscaleErosion.Output.value, Field.write]
  rw [hD, hE]
  refine ⟨?_, ?_, rfl, ?_, rfl, ?_, ?_, ?_, ?_, ?_⟩
  · intro h
    simp [h]
  · intro h
    have h1 : ¬ distance ≤ size * 256 := by omega
    have h2 : ¬ distance < size * 256 + 256 := by omega
    simp [h1, h2]
  · simp only [GrayscaleDilation.Output.new]
    ring
  · simp only [GrayscaleErosion.Output.new]
    ring
  · simp only [GrayscaleDilation.Output.new]
    ring
  · simp only [GrayscaleErosion.Output.new]
    ring
  · intro ha hb
    split_ifs at ha hb with h1 h2
    · exact absurd rfl ha
    · omega
    · exact absurd rfl hb
  · intro ha hb
    split_ifs at ha hb with h1 h2
    · exact absurd rfl ha
    · omega
    · exact absurd rfl hb

/-- C3 at `size == 2`: the distance `512` is written as `255*256`, the distance `768` as
`0`. -/
theorem inside_outside_values_witness :
    (0 : Int) < 2
      ∧ ((GrayscaleDilation.Output.new blank 2).call 0 0 512).m_dest 0 0 = 255 * 256
      ∧ ((GrayscaleErosion.Output.new blank 2).call 0 0 512).m_dest 0 0 = 255 * 256
      ∧ (GrayscaleDilation.Output.new blank 2).m_sizePlusOne
          - (GrayscaleDilation.Output.new blank 2).m_size = 256 :=
  ⟨by decide,
    ((inside_outside_values blank 2 0 0 512 (by decide)).1 (by decide)).1,
    ((inside_outside_values blank 2 0 0 512 (by decide)).1 (by decide)).2,
    (inside_outside_values blank 2 0 0 512 (by decide)).2.2.2.2.2.2.1⟩

/-! ## DistanceMap: the output functor -/

/-- The value the `DistanceMap` functor built for `size` writes at `(x, y)`. -/
theorem distanceMap_call_dest (dest : Field) (size x y distance : Int) :
    ((DistanceMap.Output.new dest size).call x y distance).m_dest x y
      = (DistanceMap.Output.new dest size).value distance := by
  simp [DistanceMap.Output.call, Field.write]

/-- On the ramp the truncating quotient of the `DistanceMap` functor is the floor quotient. -/
theorem distanceMap_value_ramp (dest : Field) (size distance : Int) (hs : 0 < size)
    (hd : 0 ≤ distance) (h : distance ≤ size * 256) :
    (DistanceMap.Output.new dest size).value distance = distance * 256 / (size * 256) := by
  simp only [DistanceMap.Output.value, DistanceMap.Output.new, h, if_true]
  exact Int.tdiv_eq_ediv (by omega) (by omega)

/-- On the 32-bit range `wrap32` changes nothing. -/
theorem wrap32_of_range (z : Int) (h0 : -2147483648 ≤ z) (h1 : z ≤ 2147483647) :
    wrap32 z = z := by
  unfold wrap32
  omega

/-- The value the 32-bit `DistanceMap` functor built for `size` writes at `(x, y)`. -/
theorem distanceMap_call32_dest (dest : Field) (size x y distance : Int) :
    ((DistanceMap.Output.new32 dest size).call32 x y distance).m_dest x y
      = if distance ≤ wrap32 (size * 256)
        then wrap32 (Int.tdiv (wrap32 (distance * 256)) (wrap32 (size * 256)))
        else 0 := by
  simp [DistanceMap.Output.call32, DistanceMap.Output.new32, DistanceMap.Output.value32,
    Field.write]

/-- For `1 <= size <= 32767` nothing overflows on the ramp: the 32-bit functor writes the
integer quotient `distance*256 / (size*256)`. -/
theorem distanceMap_call32_ramp (dest : Field) (size x y distance : Int) (h1 : 1 ≤ size)
    (h2 : size ≤ 32767) (hd0 : 0 ≤ distance) (hd : distance ≤ size * 256) :
    ((DistanceMap.Output.new32 dest size).call32 x y distance).m_dest x y
      = distance * 256 / (size * 256) := by
  have w1 : wrap32 (size * 256) = size * 256 := wrap32_of_range _ (by omega) (by omega)
  have w3 : wrap32 (distance * 256) = distance * 256 :=
    wrap32_of_range _ (by omega) (by omega)
  have hq : distance * 256 / (size * 256) = distance / size :=
    Int.mul_ediv_mul_of_pos_left distance size (by omega)
  have hq0 : 0 ≤ distance / size := Int.ediv_nonneg hd0 (by omega)
  have hq1 : distance / size ≤ 256 := by
    have h := Int.ediv_le_ediv (show (0 : Int) < size by omega) hd
    rw [Int.mul_ediv_cancel_left 256 (show size ≠ 0 by omega)] at h
    exact h
  rw [distanceMap_call32_dest, w1, w3, if_pos hd,
    Int.tdiv_eq_ediv (show (0 : Int) ≤ distance * 256 by omega)
      (show (0 : Int) ≤ size * 256 by omega), hq]
  exact wrap32_of_range _ (by omega) (by omega)

/-- For `1 <= size <= 32767` the 32-bit functor writes `0` beyond the ramp. -/
theorem distanceMap_call32_beyond (dest : Field) (size x y distance : Int) (h1 : 1 ≤ size)
    (h2 : size ≤ 32767) (hd : size * 256 < distance) :
    ((DistanceMap.Output.new32 dest size).call32 x y distance).m_dest x y = 0 := by
  have w1 : wrap32 (size * 256) = size * 256 := wrap32_of_range _ (by omega) (by omega)
  rw [distanceMap_call32_dest, w1, if_neg (not_le.mpr hd)]

/-- C9, as stated, fails: for `size == 32768`, whose `size*256` is still a 32-bit `int`, and
`distance == 8388608 == size*256`, the product `distance*256` is `2^31`, which wraps to
`-2^31`, and the functor writes `-256`, while `distance*256 / (size*256)` is `256`. -/
theorem distanceMap_value_overflows :
    (0 : Int) < 32768 ∧ (32768 : Int) * 256 + 256 ≤ 2147483647 ∧ (0 : Int) ≤ 8388608
      ∧ (8388608 : Int) ≤ 32768 * 256
      ∧ ((DistanceMap.Output.new32 blank 32768).call32 0 0 8388608).m_dest 0 0 = -256
      ∧ ((8388608 : Int) * 256 / (32768 * 256) = 256)
      ∧ ((DistanceMap.Output.new32 blank 32768).call32 0 0 8388608).m_dest 0 0
          ≠ (if (8388608 : Int) ≤ 32768 * 256 then 8388608 * 256 / (32768 * 256) else 0) := by
  decide

/-- C9, amended: for `1 <= size <= 32767` and `distance >= 0`, the `DistanceMap` functor
writes the integer quotient `distance*256 / (size*256)` when `distance <= size*256`, and `0`
otherwise. -/
theorem distanceMap_value (dest : Field) (size x y distance : Int) (h1 : 1 ≤ size)
    (h2 : size ≤ 32767) (hd : 0 ≤ distance) :
    ((DistanceMap.Output.new32 dest size).call32 x y distance).m_dest x y
      = if distance ≤ size * 256 then distance * 256 / (size * 256) else 0 := by
  split_ifs with h
  · exact distanceMap_call32_ramp dest size x y distance h1 h2 hd h
  · exact distanceMap_call32_beyond dest size x y distance h1 h2 (not_le.mp h)

/-- The amended C9 at `size == 2`: the distance `300` is written as `300*256 / 512 = 150`,
the distance `513` as `0`. -/
theorem distanceMap_value_witness :
    (1 : Int) ≤ 2 ∧ (2 : Int) ≤ 32767 ∧ (0 : Int) ≤ 300
      ∧ ((DistanceMap.Output.new32 blank 2).call32 0 0 300).m_dest 0 0 = 150
      ∧ ((DistanceMap.Output.new32 blank 2).call32 0 0 513).m_dest 0 0 = 0 :=
  ⟨by decide, by decide, by decide,
    (distanceMap_value blank 2 0 0 300 (by decide) (by decide) (by decide)).trans (by decide),
    (distanceMap_value blank 2 0 0 513 (by decide) (by decide) (by decide)).trans
      (by decide)⟩

/-- C10, as stated, fails: for `size == 1` the functor writes `0` for the distance `0` and
`256` for the larger distance `256`.  Nor does the output rise along the whole ramp for every
`size`: for `size == 32768` it is `255` at the distance `8388607` and, `distance*256`
overflowing, `-256` at `8388608`. -/
theorem distanceMap_not_nonincreasing :
    (0 : Int) < 1 ∧ (0 : Int) ≤ 0 ∧ (0 : Int) ≤ 256
      ∧ ((DistanceMap.Output.new32 blank 1).call32 0 0 0).m_dest 0 0 = 0
      ∧ ((DistanceMap.Output.new32 blank 1).call32 0 0 256).m_dest 0 0 = 256
      ∧ ¬ (((DistanceMap.Output.new32 blank 1).call32 0 0 0).m_dest 0 0
            ≥ ((DistanceMap.Output.new32 blank 1).call32 0 0 256).m_dest 0 0)
      ∧ (8388608 : Int) ≤ 32768 * 256
      ∧ ((DistanceMap.Output.new32 blank 32768).call32 0 0 8388607).m_dest 0 0 = 255
      ∧ ((DistanceMap.Output.new32 blank 32768).call32 0 0 8388608).m_dest 0 0 = -256 := by
  decide

/-- C10, amended: for `1 <= size <= 32767` and `0 <= d1 <= d2`, the `DistanceMap` output is
non-decreasing on the ramp (`d2 <= size*256` gives `output d1 <= output d2`), and
`output d1 >= output d2` holds when `d2` lies beyond the ramp (`d2 > size*256`), where the
output is `0`. -/
theorem distanceMap_monotone_on_ramp (dest : Field) (size x y d1 d2 : Int) (h1 : 1 ≤ size)
    (h2 : size ≤ 32767) (h0 : 0 ≤ d1) (h12 : d1 ≤ d2) :
    (d2 ≤ size * 256 →
        ((DistanceMap.Output.new32 dest size).call32 x y d1).m_dest x y
          ≤ ((DistanceMap.Output.new32 dest size).call32 x y d2).m_dest x y)
      ∧ (size * 256 < d2 →
        ((DistanceMap.Output.new32 dest size).call32 x y d2).m_dest x y = 0
        ∧ ((DistanceMap.Output.new32 dest size).call32 x y d1).m_dest x y
          ≥ ((DistanceMap.Output.new32 dest size).call32 x y d2).m_dest x y) := by
  constructor
  · intro hd2
    rw [distanceMap_call32_ramp dest size x y d1 h1 h2 h0 (le_trans h12 hd2),
      distanceMap_call32_ramp dest size x y d2 h1 h2 (le_trans h0 h12) hd2]
    exact Int.ediv_le_ediv (by omega) (by omega)
  · intro hd2
    rw [distanceMap_call32_beyond dest size x y d2 h1 h2 hd2]
    refine ⟨rfl, ?_⟩
    by_cases hd1 : d1 ≤ size * 256
    · rw [distanceMap_call32_ramp dest size x y d1 h1 h2 h0 hd1]
      exact Int.ediv_nonneg (by omega) (by omega)
    · rw [distanceMap_call32_beyond dest size x y d1 h1 h2 (not_le.mp hd1)]

/-- The amended C10 at `size == 1`: from distance `0` to `256` the output rises from `0`
to `256`, and at `257` it is back to `0`. -/
theorem distanceMap_monotone_on_ramp_witness :
    (1 : Int) ≤ 1 ∧ (1 : Int) ≤ 32767 ∧ (0 : Int) ≤ 0 ∧ (0 : Int) ≤ 256
      ∧ (256 : Int) ≤ 1 * 256
      ∧ ((DistanceMap.Output.new32 blank 1).call32 0 0 0).m_dest 0 0
          ≤ ((DistanceMap.Output.new32 blank 1).call32 0 0 256).m_dest 0 0
      ∧ (1 : Int) * 256 < 257
      ∧ ((DistanceMap.Output.new32 blank 1).call32 0 0 257).m_dest 0 0 = 0 :=
  ⟨by decide, by decide, by decide, by decide, by decide,
    (distanceMap_monotone_on_ramp blank 1 0 0 0 256 (by decide) (by decide) (by decide)
      (by decide)).1 (by decide),
    by decide,
    ((distanceMap_monotone_on_ramp blank 1 0 0 0 257 (by decide) (by decide) (by decide)
      (by decide)).2 (by decide)).1⟩

/-! ## Rounding to `float` and `double` -/

/-- The rounded integer is within one half of the argument. -/
theorem roundHalfEven_bounds (x : ℚ) :
    x - 1 / 2 ≤ (roundHalfEven x : ℚ) ∧ (roundHalfEven x : ℚ) ≤ x + 1 / 2 := by
  have h1 := Int.floor_le x
  have h2 := Int.lt_floor_add_one x
  unfold roundHalfEven
  split_ifs <;> push_cast <;> constructor <;> linarith

/-- Rounding to the nearest integer is monotone. -/
theorem roundHalfEven_mono {x y : ℚ} (h : x ≤ y) : roundHalfEven x ≤ roundHalfEven y := by
  by_contra hc
  have hlt : roundHalfEven y + 1 ≤ roundHalfEven x := by omega
  have hq : (roundHalfEven y : ℚ) + 1 ≤ (roundHalfEven x : ℚ) := by exact_mod_cast hlt
  have bx := roundHalfEven_bounds x
  have bw := roundHalfEven_bounds y
  have hxy : x = y := le_antisymm h (by linarith [bx.2, bw.1])
  rw [hxy] at hc
  exact hc (le_refl _)

/-- An integer is rounded to itself. -/
theorem roundHalfEven_intCast (n : Int) : roundHalfEven (n : ℚ) = n := by
  unfold roundHalfEven
  rw [Int.floor_intCast]
  norm_num

/-- An argument strictly within one half of `n` is rounded to `n`. -/
theorem roundHalfEven_near (x : ℚ) (n : Int) (h1 : (n : ℚ) - 1 / 2 < x)
    (h2 : x < (n : ℚ) + 1 / 2) : roundHalfEven x = n := by
  have b := roundHalfEven_bounds x
  have hlo : (n : ℚ) - 1 < (roundHalfEven x : ℚ) := by linarith [b.1]
  have hhi : (roundHalfEven x : ℚ) < (n : ℚ) + 1 := by linarith [b.2]
  have hlo2 : n - 1 < roundHalfEven x := by exact_mod_cast hlo
  have hhi2 : roundHalfEven x < n + 1 := by exact_mod_cast hhi
  omega

/-- A tie `n + 1/2` goes to the even one of `n` and `n + 1`. -/
theorem roundHalfEven_tie (x : ℚ) (n : Int) (h : x = (n : ℚ) + 1 / 2) :
    roundHalfEven x = if n % 2 = 0 then n else n + 1 := by
  have hf : ⌊x⌋ = n := by
    rw [Int.floor_eq_iff, h]
    constructor <;> linarith
  unfold roundHalfEven
  rw [hf, h]
  norm_num

/-- The powers of two are positive. -/
theorem two_zpow_pos (z : Int) : (0 : ℚ) < (2 : ℚ) ^ z :=
  zpow_pos (by norm_num) z

/-- Zero is rounded to zero. -/
theorem roundBinary_zero (p : Nat) (emin : Int) : roundBinary p emin 0 = 0 := by
  unfold roundBinary
  rw [zero_div]
  have h : roundHalfEven (0 : ℚ) = 0 := by
    have := roundHalfEven_intCast 0
    simpa using this
  rw [h]
  simp

/-- A non-negative value is rounded to a non-negative value. -/
theorem roundBinary_nonneg (p : Nat) (emin : Int) {q : ℚ} (h : 0 ≤ q) :
    0 ≤ roundBinary p emin q := by
  unfold roundBinary
  have hu := two_zpow_pos (binaryExponent emin q - ((p : Int) - 1))
  have h0 : roundHalfEven (0 : ℚ) = 0 := by
    have := roundHalfEven_intCast 0
    simpa using this
  have hr : 0 ≤ roundHalfEven (q / (2 : ℚ) ^ (binaryExponent emin q - ((p : Int) - 1))) := by
    rw [← h0]
    exact roundHalfEven_mono (div_nonneg h (le_of_lt hu))
  have hrq : (0 : ℚ) ≤
      (roundHalfEven (q / (2 : ℚ) ^ (binaryExponent emin q - ((p : Int) - 1))) : ℚ) := by
    exact_mod_cast hr
  exact mul_nonneg hrq (le_of_lt hu)

/-- The binary logarithm of a value between two consecutive powers of two. -/
theorem log_two_eq {q : ℚ} {e : Int} (hlo : (2 : ℚ) ^ e ≤ q) (hhi : q < (2 : ℚ) ^ (e + 1)) :
    Int.log 2 q = e := by
  have hq : 0 < q := lt_of_lt_of_le (two_zpow_pos e) hlo
  have h1 : e ≤ Int.log 2 q := by
    apply (Int.zpow_le_iff_le_log (by norm_num : 1 < 2) hq).mp
    simpa using hlo
  have h2 : Int.log 2 q < e + 1 := by
    apply (Int.lt_zpow_iff_log_lt (by norm_num : 1 < 2) hq).mp
    simpa using hhi
  omega

/-- The rounding of a value whose binade and rounded significand are known. -/
theorem roundBinary_eval (p : Nat) (emin : Int) (q : ℚ) (e n : Int) (he : emin ≤ e)
    (hlo : (2 : ℚ) ^ e ≤ |q|) (hhi : |q| < (2 : ℚ) ^ (e + 1))
    (hn : roundHalfEven (q / (2 : ℚ) ^ (e - ((p : Int) - 1))) = n) :
    roundBinary p emin q = (n : ℚ) * (2 : ℚ) ^ (e - ((p : Int) - 1)) := by
  have hl : binaryExponent emin q = e := by
    unfold binaryExponent
    rw [log_two_eq hlo hhi]
    exact max_eq_left he
  unfold roundBinary
  rw [hl, hn]

/-- A value `m * 2^j` whose significand `m` fits the precision and whose exponent is not below
the smallest one is representable: rounding leaves it as it is. -/
theorem roundBinary_exact (p : Nat) (emin : Int) (m j : Int) (hm : |m| < 2 ^ p)
    (hj : emin - ((p : Int) - 1) ≤ j) :
    roundBinary p emin ((m : ℚ) * (2 : ℚ) ^ j) = (m : ℚ) * (2 : ℚ) ^ j := by
  by_cases hm0 : m = 0
  · rw [hm0]
    simp [roundBinary_zero]
  have hj0 := two_zpow_pos j
  have habs : |(m : ℚ) * (2 : ℚ) ^ j| = (|m| : Int) * (2 : ℚ) ^ j := by
    rw [abs_mul, abs_of_pos hj0]
    push_cast
    rfl
  have hmq : ((|m| : Int) : ℚ) < (2 : ℚ) ^ (p : Int) := by
    rw [zpow_natCast]
    exact_mod_cast hm
  have hpos : (0 : ℚ) < |(m : ℚ) * (2 : ℚ) ^ j| := by
    apply abs_pos.mpr
    exact mul_ne_zero (by exact_mod_cast hm0) (ne_of_gt hj0)
  have hlt : |(m : ℚ) * (2 : ℚ) ^ j| < (2 : ℚ) ^ ((p : Int) + j) := by
    rw [habs, zpow_add₀ (by norm_num : (2 : ℚ) ≠ 0)]
    exact mul_lt_mul_of_pos_right hmq hj0
  have hlog : Int.log 2 |(m : ℚ) * (2 : ℚ) ^ j| < (p : Int) + j := by
    apply (Int.lt_zpow_iff_log_lt (by norm_num : 1 < 2) hpos).mp
    simpa using hlt
  have hk : binaryExponent emin ((m : ℚ) * (2 : ℚ) ^ j) - ((p : Int) - 1) ≤ j := by
    unfold binaryExponent
    have := max_le (show Int.log 2 |(m : ℚ) * (2 : ℚ) ^ j| ≤ j + ((p : Int) - 1) by omega)
      (show emin ≤ j + ((p : Int) - 1) by omega)
    omega
  unfold roundBinary
  generalize binaryExponent emin ((m : ℚ) * (2 : ℚ) ^ j) - ((p : Int) - 1) = k at hk
  have hk0 := two_zpow_pos k
  obtain ⟨n, hn⟩ : ∃ n : Nat, j = k + (n : Int) := ⟨(j - k).toNat, by omega⟩
  have hsplit : (2 : ℚ) ^ j = (2 : ℚ) ^ k * (2 : ℚ) ^ n := by
    rw [hn, zpow_add₀ (by norm_num : (2 : ℚ) ≠ 0), zpow_natCast]
  have hdiv : (m : ℚ) * (2 : ℚ) ^ j / (2 : ℚ) ^ k = ((m * 2 ^ n : Int) : ℚ) := by
    rw [hsplit]
    push_cast
    field_simp
    ring
  rw [hdiv, roundHalfEven_intCast, hsplit]
  push_cast
  ring

/-- An integer that fits the precision is representable. -/
theorem roundBinary_intCast (p : Nat) (emin : Int) (m : Int) (hm : |m| < 2 ^ p)
    (hj : emin - ((p : Int) - 1) ≤ 0) : roundBinary p emin (m : ℚ) = m := by
  have := roundBinary_exact p emin m 0 hm hj
  simpa using this

/-- Rounding is monotone on the non-negative values. -/
theorem roundBinary_mono_nonneg (p : Nat) (emin : Int) (hp : 1 ≤ p) {x y : ℚ} (hx : 0 ≤ x)
    (hxy : x ≤ y) : roundBinary p emin x ≤ roundBinary p emin y := by
  rcases eq_or_lt_of_le hx with h0 | hxpos
  · rw [← h0, roundBinary_zero]
    exact roundBinary_nonneg p emin (le_trans hx hxy)
  have hypos : 0 < y := lt_of_lt_of_le hxpos hxy
  have hlog : Int.log 2 x ≤ Int.log 2 y := Int.log_mono_right hxpos hxy
  have hex : binaryExponent emin x = max (Int.log 2 x) emin := by
    unfold binaryExponent
    rw [abs_of_pos hxpos]
  have hey : binaryExponent emin y = max (Int.log 2 y) emin := by
    unfold binaryExponent
    rw [abs_of_pos hypos]
  have hle : binaryExponent emin x ≤ binaryExponent emin y := by
    rw [hex, hey]
    exact max_le_max hlog (le_refl _)
  rcases eq_or_lt_of_le hle with heq | hlt
  · unfold roundBinary
    rw [heq]
    have hu := two_zpow_pos (binaryExponent emin y - ((p : Int) - 1))
    have hr : roundHalfEven (x / (2 : ℚ) ^ (binaryExponent emin y - ((p : Int) - 1)))
        ≤ roundHalfEven (y / (2 : ℚ) ^ (binaryExponent emin y - ((p : Int) - 1))) :=
      roundHalfEven_mono (div_le_div_of_nonneg_right hxy (le_of_lt hu))
    have hrq : (roundHalfEven (x / (2 : ℚ) ^ (binaryExponent emin y - ((p : Int) - 1))) : ℚ)
        ≤ (roundHalfEven (y / (2 : ℚ) ^ (binaryExponent emin y - ((p : Int) - 1))) : ℚ) := by
      exact_mod_cast hr
    exact mul_le_mul_of_nonneg_right hrq (le_of_lt hu)
  · -- the exponents differ: a power of two lies between the two roundings
    have hylog : binaryExponent emin y = Int.log 2 y := by
      rw [hey]
      apply max_eq_left
      by_contra hc
      have h1 : max (Int.log 2 y) emin = emin := max_eq_right (by omega)
      have h2 : emin ≤ binaryExponent emin x := by
        rw [hex]
        exact le_max_right _ _
      omega
    have hxlt : x < (2 : ℚ) ^ (binaryExponent emin x + 1) := by
      have h1 : x < (2 : ℚ) ^ (Int.log 2 x + 1) := by
        have := Int.lt_zpow_succ_log_self (by norm_num : 1 < 2) x
        simpa using this
      have h2 : (2 : ℚ) ^ (Int.log 2 x + 1) ≤ (2 : ℚ) ^ (binaryExponent emin x + 1) := by
        apply zpow_le_zpow_right₀ (by norm_num)
        rw [hex]
        have := le_max_left (Int.log 2 x) emin
        omega
      exact lt_of_lt_of_le h1 h2
    have hyge : (2 : ℚ) ^ (binaryExponent emin y) ≤ y := by
      rw [hylog]
      have := Int.zpow_log_le_self (by norm_num : 1 < 2) hypos
      simpa using this
    -- upper bound of the rounding of x
    have hux := two_zpow_pos (binaryExponent emin x - ((p : Int) - 1))
    have huy := two_zpow_pos (binaryExponent emin y - ((p : Int) - 1))
    have hxR : roundBinary p emin x ≤ (2 : ℚ) ^ (binaryExponent emin x + 1) := by
      have hsplit : (2 : ℚ) ^ (binaryExponent emin x + 1)
          = ((2 ^ p : Int) : ℚ) * (2 : ℚ) ^ (binaryExponent emin x - ((p : Int) - 1)) := by
        push_cast
        rw [← zpow_natCast, ← zpow_add₀ (by norm_num : (2 : ℚ) ≠ 0)]
        congr 1
        omega
      have hdiv : x / (2 : ℚ) ^ (binaryExponent emin x - ((p : Int) - 1))
          ≤ ((2 ^ p : Int) : ℚ) := by
        rw [div_le_iff₀ hux, ← hsplit]
        exact le_of_lt hxlt
      have hr := roundHalfEven_mono hdiv
      rw [roundHalfEven_intCast] at hr
      have hrq : (roundHalfEven (x / (2 : ℚ) ^ (binaryExponent emin x - ((p : Int) - 1))) : ℚ)
          ≤ ((2 ^ p : Int) : ℚ) := by exact_mod_cast hr
      rw [hsplit]
      unfold roundBinary
      exact mul_le_mul_of_nonneg_right hrq (le_of_lt hux)
    have hyR : (2 : ℚ) ^ (binaryExponent emin y) ≤ roundBinary p emin y := by
      obtain ⟨p1, hp1⟩ : ∃ p1 : Nat, p = p1 + 1 := ⟨p - 1, by omega⟩
      have hsplit : (2 : ℚ) ^ (binaryExponent emin y)
          = ((2 ^ p1 : Int) : ℚ) * (2 : ℚ) ^ (binaryExponent emin y - ((p : Int) - 1)) := by
        push_cast
        rw [← zpow_natCast, ← zpow_add₀ (by norm_num : (2 : ℚ) ≠ 0)]
        congr 1
        rw [hp1]
        push_cast
        omega
      have hdiv : ((2 ^ p1 : Int) : ℚ)
          ≤ y / (2 : ℚ) ^ (binaryExponent emin y - ((p : Int) - 1)) := by
        rw [le_div_iff₀ huy, ← hsplit]
        exact hyge
      have hr := roundHalfEven_mono hdiv
      rw [roundHalfEven_intCast] at hr
      have hrq : ((2 ^ p1 : Int) : ℚ)
          ≤ (roundHalfEven (y / (2 : ℚ) ^ (binaryExponent emin y - ((p : Int) - 1))) : ℚ) := by
        exact_mod_cast hr
      rw [hsplit]
      unfold roundBinary
      exact mul_le_mul_of_nonneg_right hrq (le_of_lt huy)
    have hmid : (2 : ℚ) ^ (binaryExponent emin x + 1) ≤ (2 : ℚ) ^ (binaryExponent emin y) :=
      zpow_le_zpow_right₀ (by norm_num) (by omega)
    exact le_trans hxR (le_trans hmid hyR)

/-- The values `m * 2^j` with `|m| < 2^24` and `j >= -149` are `float` values. -/
theorem roundFloat_exact (m j : Int) (hm : |m| < 16777216) (hj : -149 ≤ j) :
    roundFloat ((m : ℚ) * (2 : ℚ) ^ j) = (m : ℚ) * (2 : ℚ) ^ j :=
  roundBinary_exact 24 (-126) m j (by norm_num; exact hm) (by norm_num; exact hj)

/-- The values `m * 2^j` with `|m| < 2^53` and `j >= -1074` are `double` values. -/
theorem roundDouble_exact (m j : Int) (hm : |m| < 9007199254740992) (hj : -1074 ≤ j) :
    roundDouble ((m : ℚ) * (2 : ℚ) ^ j) = (m : ℚ) * (2 : ℚ) ^ j :=
  roundBinary_exact 53 (-1022) m j (by norm_num; exact hm) (by norm_num; exact hj)

/-- Rounding to `float` is monotone on the non-negative values. -/
theorem roundFloat_mono {x y : ℚ} (hx : 0 ≤ x) (hxy : x ≤ y) : roundFloat x ≤ roundFloat y :=
  roundBinary_mono_nonneg 24 (-126) (by norm_num) hx hxy

/-- Rounding to `double` is monotone on the non-negative values. -/
theorem roundDouble_mono {x y : ℚ} (hx : 0 ≤ x) (hxy : x ≤ y) :
    roundDouble x ≤ roundDouble y :=
  roundBinary_mono_nonneg 53 (-1022) (by norm_num) hx hxy

/-- The `float` literal `1.85f`. -/
theorem roundFloat_185 : roundFloat (185 / 100) = 15518925 / 8388608 := by
  have h := roundBinary_eval 24 (-126) (185 / 100) 0 15518925 (by norm_num)
    (by norm_num [abs_of_pos]) (by norm_num [abs_of_pos])
    (roundHalfEven_near _ _ (by norm_num) (by norm_num))
  unfold roundFloat
  rw [h]
  norm_num

/-- The `float` literal `0.45f`. -/
theorem roundFloat_45 : roundFloat (45 / 100) = 7549747 / 16777216 := by
  have h := roundBinary_eval 24 (-126) (45 / 100) (-2) 15099494 (by norm_num)
    (by norm_num [abs_of_pos]) (by norm_num [abs_of_pos])
    (roundHalfEven_near _ _ (by norm_num) (by norm_num))
  unfold roundFloat
  rw [h]
  norm_num

/-- The `float` difference `1.85f - 0.45f`, a tie that goes to the even neighbour. -/
theorem roundFloat_140 :
    roundFloat (15518925 / 8388608 - 7549747 / 16777216) = 2936013 / 2097152 := by
  have ht : roundHalfEven (((15518925 : ℚ) / 8388608 - 7549747 / 16777216)
      / (2 : ℚ) ^ ((0 : Int) - (((24 : Nat) : Int) - 1))) = 11744052 := by
    rw [roundHalfEven_tie _ 11744051 (by norm_num)]
    decide
  have h := roundBinary_eval 24 (-126) (15518925 / 8388608 - 7549747 / 16777216) 0 11744052
    (by norm_num) (by norm_num [abs_of_pos]) (by norm_num [abs_of_pos]) ht
  unfold roundFloat
  rw [h]
  norm_num

/-- A non-negative value is rounded to a non-negative `float`. -/
theorem roundFloat_nonneg {q : ℚ} (h : 0 ≤ q) : 0 ≤ roundFloat q :=
  roundBinary_nonneg 24 (-126) h

/-- A non-negative value is rounded to a non-negative `double`. -/
theorem roundDouble_nonneg {q : ℚ} (h : 0 ≤ q) : 0 ≤ roundDouble q :=
  roundBinary_nonneg 53 (-1022) h

/-- Zero is a `float`. -/
theorem roundFloat_zero : roundFloat 0 = 0 :=
  roundBinary_zero 24 (-126)

/-- Zero is a `double`. -/
theorem roundDouble_zero : roundDouble 0 = 0 :=
  roundBinary_zero 53 (-1022)

/-- The integers below `2^24` in absolute value are `float` values. -/
theorem roundFloat_intCast (m : Int) (hm : |m| < 16777216) : roundFloat (m : ℚ) = m := by
  have h := roundFloat_exact m 0 hm (by norm_num)
  simpa using h

/-- The integers below `2^53` in absolute value are `double` values. -/
theorem roundDouble_intCast (m : Int) (hm : |m| < 9007199254740992) :
    roundDouble (m : ℚ) = m := by
  have h := roundDouble_exact m 0 hm (by norm_num)
  simpa using h

/-- A half-integer of moderate size is a `double`. -/
theorem roundDouble_half (n : Int) (h0 : 0 ≤ n) (h1 : n ≤ 2147483647) :
    roundDouble ((n : ℚ) + 1 / 2) = (n : ℚ) + 1 / 2 := by
  have h := roundDouble_exact (2 * n + 1) (-1) (by rw [abs_of_nonneg (by omega)]; omega)
    (by norm_num)
  have e : ((2 * n + 1 : Int) : ℚ) * (2 : ℚ) ^ (-1 : Int) = (n : ℚ) + 1 / 2 := by
    push_cast
    rw [zpow_neg_one]
    ring
  rwa [e] at h

/-- The `float` fudge factor with the two literals evaluated. -/
theorem fudgeIeee_eq (b : Int) :
    BoxBlurAndDilateSettings.fudgeIeee b
      = roundFloat (15518925 / 8388608
          - roundFloat (7549747 / 16777216
              * min 1 (roundFloat (roundFloat (b : ℚ) / 10)))) := by
  unfold BoxBlurAndDilateSettings.fudgeIeee
  rw [roundFloat_185, roundFloat_45]

/-- The factor `std::min (1.0f, blurPixels / 10.f)` is not negative for `blurPixels >= 0`. -/
theorem fudgeRatio_nonneg (b : Int) (hb : 0 ≤ b) :
    (0 : ℚ) ≤ min 1 (roundFloat (roundFloat (b : ℚ) / 10)) := by
  have hq : (0 : ℚ) ≤ (b : ℚ) := by exact_mod_cast hb
  exact le_min zero_le_one
    (roundFloat_nonneg (div_nonneg (roundFloat_nonneg hq) (by norm_num)))

/-- The factor `std::min (1.0f, blurPixels / 10.f)` does not decrease with `blurPixels`. -/
theorem fudgeRatio_mono (b1 b2 : Int) (hb : 0 ≤ b1) (h : b1 ≤ b2) :
    min 1 (roundFloat (roundFloat (b1 : ℚ) / 10))
      ≤ min 1 (roundFloat (roundFloat (b2 : ℚ) / 10)) := by
  have hq : (0 : ℚ) ≤ (b1 : ℚ) := by exact_mod_cast hb
  have hq12 : (b1 : ℚ) ≤ (b2 : ℚ) := by exact_mod_cast h
  apply min_le_min (le_refl 1)
  apply roundFloat_mono (div_nonneg (roundFloat_nonneg hq) (by norm_num))
  exact div_le_div_of_nonneg_right (roundFloat_mono hq hq12) (by norm_num)

/-- The factor `std::min (1.0f, blurPixels / 10.f)` is `1` from `blurPixels = 10` on. -/
theorem fudgeRatio_of_ten_le (b : Int) (hb : 10 ≤ b) :
    min 1 (roundFloat (roundFloat (b : ℚ) / 10)) = 1 := by
  have hq : (10 : ℚ) ≤ (b : ℚ) := by exact_mod_cast hb
  have h10 : roundFloat 10 = 10 := by
    have := roundFloat_intCast 10 (by decide)
    simpa using this
  have h1 : roundFloat 1 = 1 := by
    have := roundFloat_intCast 1 (by decide)
    simpa using this
  have ha : (10 : ℚ) ≤ roundFloat (b : ℚ) := by
    rw [← h10]
    exact roundFloat_mono (by norm_num) hq
  have hb1 : (1 : ℚ) ≤ roundFloat (b : ℚ) / 10 := by
    rw [le_div_iff₀ (by norm_num)]
    linarith
  have hc : (1 : ℚ) ≤ roundFloat (roundFloat (b : ℚ) / 10) := by
    rw [← h1]
    exact roundFloat_mono (by norm_num) hb1
  exact min_eq_left hc

/-- The `float` product `0.45f * m` for a factor `m` in `[0, 1]` lies in `[0, 0.45f]`. -/
theorem fudgeTerm_bounds (m : ℚ) (h0 : 0 ≤ m) (h1 : m ≤ 1) :
    (0 : ℚ) ≤ roundFloat (7549747 / 16777216 * m)
      ∧ roundFloat (7549747 / 16777216 * m) ≤ 7549747 / 16777216 := by
  constructor
  · exact roundFloat_nonneg (mul_nonneg (by norm_num) h0)
  · have hx : roundFloat (7549747 / 16777216) = 7549747 / 16777216 := by
      have h := roundFloat_exact 7549747 (-24) (by decide) (by norm_num)
      have e : ((7549747 : Int) : ℚ) * (2 : ℚ) ^ (-24 : Int) = 7549747 / 16777216 := by
        norm_num
      rwa [e] at h
    have hm : (7549747 / 16777216 : ℚ) * m ≤ 7549747 / 16777216 := by nlinarith
    calc roundFloat (7549747 / 16777216 * m)
        ≤ roundFloat (7549747 / 16777216) :=
          roundFloat_mono (mul_nonneg (by norm_num) h0) hm
      _ = 7549747 / 16777216 := hx

/-- The value of `1.85f` is a `float`. -/
theorem roundFloat_185_exact : roundFloat (15518925 / 8388608) = 15518925 / 8388608 := by
  have h := roundFloat_exact 15518925 (-23) (by decide) (by norm_num)
  have e : ((15518925 : Int) : ℚ) * (2 : ℚ) ^ (-23 : Int) = 15518925 / 8388608 := by
    norm_num
  rwa [e] at h

/-- The `float` fudge factor is at least the `float` result of `1.85f - 0.45f`. -/
theorem fudgeIeee_ge (b : Int) (hb : 0 ≤ b) :
    (2936013 / 2097152 : ℚ) ≤ BoxBlurAndDilateSettings.fudgeIeee b := by
  rw [fudgeIeee_eq, ← roundFloat_140]
  have hm := fudgeTerm_bounds _ (fudgeRatio_nonneg b hb) (min_le_left _ _)
  apply roundFloat_mono (by norm_num)
  linarith [hm.2]

/-- The `float` fudge factor is at most `1.85f`. -/
theorem fudgeIeee_le (b : Int) (hb : 0 ≤ b) :
    BoxBlurAndDilateSettings.fudgeIeee b ≤ 15518925 / 8388608 := by
  rw [fudgeIeee_eq]
  have hm := fudgeTerm_bounds _ (fudgeRatio_nonneg b hb) (min_le_left _ _)
  have hnn : (0 : ℚ) ≤ 15518925 / 8388608
      - roundFloat (7549747 / 16777216 * min 1 (roundFloat (roundFloat (b : ℚ) / 10))) := by
    linarith [hm.2]
  calc roundFloat (15518925 / 8388608
          - roundFloat (7549747 / 16777216 * min 1 (roundFloat (roundFloat (b : ℚ) / 10))))
      ≤ roundFloat (15518925 / 8388608) := roundFloat_mono hnn (by linarith [hm.1])
    _ = 15518925 / 8388608 := roundFloat_185_exact

/-- The `float` fudge factor does not grow with `blurPixels`. -/
theorem fudgeIeee_antitone (b1 b2 : Int) (hb : 0 ≤ b1) (h : b1 ≤ b2) :
    BoxBlurAndDilateSettings.fudgeIeee b2 ≤ BoxBlurAndDilateSettings.fudgeIeee b1 := by
  rw [fudgeIeee_eq, fudgeIeee_eq]
  have hr := fudgeRatio_mono b1 b2 hb h
  have h1 := fudgeRatio_nonneg b1 hb
  have hm2 := fudgeTerm_bounds _ (fudgeRatio_nonneg b2 (le_trans hb h)) (min_le_left _ _)
  have hp : roundFloat (7549747 / 16777216 * min 1 (roundFloat (roundFloat (b1 : ℚ) / 10)))
      ≤ roundFloat (7549747 / 16777216 * min 1 (roundFloat (roundFloat (b2 : ℚ) / 10))) := by
    apply roundFloat_mono (mul_nonneg (by norm_num) h1)
    exact mul_le_mul_of_nonneg_left hr (by norm_num)
  apply roundFloat_mono
  · linarith [hm2.2]
  · linarith

/-- The `float` fudge factor at `blurPixels = 0` is `1.85f`. -/
theorem fudgeIeee_zero :
    BoxBlurAndDilateSettings.fudgeIeee 0 = 15518925 / 8388608 := by
  rw [fudgeIeee_eq]
  have h0 : roundFloat (((0 : Int) : ℚ)) = 0 := by
    simpa using roundFloat_zero
  rw [h0, zero_div, roundFloat_zero]
  have hmin : min (1 : ℚ) 0 = 0 := min_eq_right zero_le_one
  rw [hmin, mul_zero, roundFloat_zero, sub_zero]
  exact roundFloat_185_exact

/-- The `float` fudge factor from `blurPixels = 10` on is the `float` result of `1.85f - 0.45f`. -/
theorem fudgeIeee_of_ten_le (b : Int) (hb : 10 ≤ b) :
    BoxBlurAndDilateSettings.fudgeIeee b = 2936013 / 2097152 := by
  rw [fudgeIeee_eq, fudgeRatio_of_ten_le b hb, mul_one]
  have hx : roundFloat (7549747 / 16777216) = 7549747 / 16777216 := by
    have h := roundFloat_exact 7549747 (-24) (by decide) (by norm_num)
    have e : ((7549747 : Int) : ℚ) * (2 : ℚ) ^ (-24 : Int) = 7549747 / 16777216 := by
      norm_num
    rwa [e] at h
  rw [hx]
  exact roundFloat_140

/-- The `double` computation `int (sizeInPixels * spread + 0.5)`: it is a floor, it is the
exact `floor (sizeInPixels*spread + 1/2)` or one more, and it lies in `[0, sizeInPixels]`. -/
theorem dilateIeee_facts (s : Int) (p : ℚ) (hs : 0 ≤ s) (hmax : s ≤ 2147483647)
    (h0 : 0 ≤ p) (h1 : p ≤ 1) :
    toInt (roundDouble (roundDouble ((s : ℚ) * p) + 1 / 2))
        = ⌊roundDouble (roundDouble ((s : ℚ) * p) + 1 / 2)⌋
      ∧ ⌊(s : ℚ) * p + 1 / 2⌋ ≤ ⌊roundDouble (roundDouble ((s : ℚ) * p) + 1 / 2)⌋
      ∧ ⌊roundDouble (roundDouble ((s : ℚ) * p) + 1 / 2)⌋ ≤ ⌊(s : ℚ) * p + 1 / 2⌋ + 1
      ∧ 0 ≤ ⌊roundDouble (roundDouble ((s : ℚ) * p) + 1 / 2)⌋
      ∧ ⌊roundDouble (roundDouble ((s : ℚ) * p) + 1 / 2)⌋ ≤ s := by
  have hsq : (0 : ℚ) ≤ (s : ℚ) := by exact_mod_cast hs
  have hx0 : (0 : ℚ) ≤ (s : ℚ) * p := mul_nonneg hsq h0
  have hxs : (s : ℚ) * p ≤ (s : ℚ) := by nlinarith
  have hrx0 : 0 ≤ roundDouble ((s : ℚ) * p) := roundDouble_nonneg hx0
  have hy0 : (0 : ℚ) ≤ roundDouble ((s : ℚ) * p) + 1 / 2 := by linarith
  have hry0 : 0 ≤ roundDouble (roundDouble ((s : ℚ) * p) + 1 / 2) := roundDouble_nonneg hy0
  have hk1 : ((⌊(s : ℚ) * p + 1 / 2⌋ : Int) : ℚ) ≤ (s : ℚ) * p + 1 / 2 := Int.floor_le _
  have hk2 : (s : ℚ) * p + 1 / 2 < ((⌊(s : ℚ) * p + 1 / 2⌋ : Int) : ℚ) + 1 :=
    Int.lt_floor_add_one _
  have hk0 : 0 ≤ ⌊(s : ℚ) * p + 1 / 2⌋ := Int.floor_nonneg.mpr (by linarith)
  have hks : ⌊(s : ℚ) * p + 1 / 2⌋ ≤ s := by
    have : ((⌊(s : ℚ) * p + 1 / 2⌋ : Int) : ℚ) < ((s + 1 : Int) : ℚ) := by
      push_cast
      linarith
    have : ⌊(s : ℚ) * p + 1 / 2⌋ < s + 1 := by exact_mod_cast this
    omega
  generalize ⌊(s : ℚ) * p + 1 / 2⌋ = k at hk1 hk2 hk0 hks ⊢
  refine ⟨toInt_eq_floor _ hry0, ?_, ?_, Int.floor_nonneg.mpr hry0, ?_⟩
  · -- lower bound
    rcases eq_or_lt_of_le hk0 with hz | hpos
    · rw [← hz]
      exact Int.floor_nonneg.mpr hry0
    · have hhalf := roundDouble_half (k - 1) (by omega) (by omega)
      have ha : (((k - 1 : Int) : ℚ) + 1 / 2) ≤ (s : ℚ) * p := by
        push_cast
        linarith
      have hb : (0 : ℚ) ≤ ((k - 1 : Int) : ℚ) + 1 / 2 := by
        have : (0 : ℚ) ≤ ((k - 1 : Int) : ℚ) := by exact_mod_cast (by omega : 0 ≤ k - 1)
        linarith
      have hm := roundDouble_mono hb ha
      rw [hhalf] at hm
      have hc : ((k : Int) : ℚ) ≤ roundDouble ((s : ℚ) * p) + 1 / 2 := by
        push_cast at hm
        linarith
      have hkq : (0 : ℚ) ≤ ((k : Int) : ℚ) := by exact_mod_cast hk0
      have hm2 := roundDouble_mono hkq hc
      rw [roundDouble_intCast k (by rw [abs_of_nonneg hk0]; omega)] at hm2
      exact Int.le_floor.mpr hm2
  · -- upper bound
    have hhalf := roundDouble_half k hk0 (by omega)
    have hm := roundDouble_mono hx0 (show (s : ℚ) * p ≤ (k : ℚ) + 1 / 2 by linarith)
    rw [hhalf] at hm
    have hc : roundDouble ((s : ℚ) * p) + 1 / 2 ≤ ((k + 1 : Int) : ℚ) := by
      push_cast
      linarith
    have hm2 := roundDouble_mono hy0 hc
    rw [roundDouble_intCast (k + 1) (by rw [abs_of_nonneg (by omega)]; omega)] at hm2
    have := Int.floor_le_floor hm2
    rwa [Int.floor_intCast] at this
  · -- at most sizeInPixels
    have hm := roundDouble_mono hx0 hxs
    rw [roundDouble_intCast s (by rw [abs_of_nonneg hs]; omega)] at hm
    have hc : roundDouble ((s : ℚ) * p) + 1 / 2 ≤ (s : ℚ) + 1 / 2 := by linarith
    have hm2 := roundDouble_mono hy0 hc
    rw [roundDouble_half s hs hmax] at hm2
    have hlt : roundDouble (roundDouble ((s : ℚ) * p) + 1 / 2) < ((s + 1 : Int) : ℚ) := by
      push_cast
      linarith
    have := Int.floor_lt.mpr hlt
    omega

/-- The members the constructor stores, in terms of its `float` fudge factor. -/
theorem newIeee_members (sizeInPixels : Int) (spread : ℚ) :
    (BoxBlurAndDilateSettings.newIeee sizeInPixels spread).getDilatePixels
        = toInt (roundDouble (roundDouble ((sizeInPixels : ℚ) * spread) + 1 / 2))
      ∧ (BoxBlurAndDilateSettings.newIeee sizeInPixels spread).getBoxBlurRadius
        = roundFloat (max (roundDouble
            (((sizeInPixels
                - (BoxBlurAndDilateSettings.newIeee sizeInPixels spread).getDilatePixels
                  : Int) : ℚ)
              - BoxBlurAndDilateSettings.fudgeIeee (sizeInPixels
                - (BoxBlurAndDilateSettings.newIeee sizeInPixels spread).getDilatePixels))) 0) :=
  ⟨rfl, rfl⟩

/-- At `(1, 0x1.fffffffffffffp-2)` the sum `spread + 0.5` is a tie that rounds up to `1`. -/
theorem newIeee_dilate_tie :
    (BoxBlurAndDilateSettings.newIeee 1
      (9007199254740991 / 18014398509481984)).getDilatePixels = 1 := by
  rw [(newIeee_members 1 (9007199254740991 / 18014398509481984)).1]
  have h1 : roundDouble (((1 : Int) : ℚ) * (9007199254740991 / 18014398509481984))
      = 9007199254740991 / 18014398509481984 := by
    have h := roundDouble_exact 9007199254740991 (-54) (by decide) (by norm_num)
    have e : ((9007199254740991 : Int) : ℚ) * (2 : ℚ) ^ (-54 : Int)
        = ((1 : Int) : ℚ) * (9007199254740991 / 18014398509481984) := by norm_num
    rw [e] at h
    rw [h]
    norm_num
  have ht : roundHalfEven (((9007199254740991 : ℚ) / 18014398509481984 + 1 / 2)
      / (2 : ℚ) ^ ((-1 : Int) - (((53 : Nat) : Int) - 1))) = 9007199254740992 := by
    rw [roundHalfEven_tie _ 9007199254740991 (by norm_num)]
    decide
  have h2 : roundDouble ((9007199254740991 : ℚ) / 18014398509481984 + 1 / 2) = 1 := by
    have h := roundBinary_eval 53 (-1022)
      ((9007199254740991 : ℚ) / 18014398509481984 + 1 / 2) (-1) 9007199254740992
      (by norm_num) (by norm_num [abs_of_pos]) (by norm_num [abs_of_pos]) ht
    unfold roundDouble
    rw [h]
    norm_num
  rw [h1, h2, toInt_eq_floor 1 (by norm_num)]
  exact Int.floor_one

/-- At `(10, 0)` nothing is dilated. -/
theorem newIeee_dilate_ten_zero :
    (BoxBlurAndDilateSettings.newIeee 10 0).getDilatePixels = 0 := by
  rw [(newIeee_members 10 0).1, mul_zero, roundDouble_zero, zero_add]
  have h : roundDouble (1 / 2) = 1 / 2 := by
    have h := roundDouble_exact 1 (-1) (by decide) (by norm_num)
    have e : ((1 : Int) : ℚ) * (2 : ℚ) ^ (-1 : Int) = 1 / 2 := by norm_num
    rwa [e] at h
  rw [h, toInt_eq_floor _ (by norm_num), Int.floor_eq_iff]
  norm_num

/-- At `(10, 0)` the blur radius is the `float` next to `8.6`, not `8.6`. -/
theorem newIeee_radius_ten_zero :
    (BoxBlurAndDilateSettings.newIeee 10 0).getBoxBlurRadius = 4508877 / 524288 := by
  rw [(newIeee_members 10 0).2, newIeee_dilate_ten_zero]
  have hb : ((10 : Int) - 0) = 10 := by decide
  rw [hb, fudgeIeee_of_ten_le 10 (by decide)]
  have h1 : roundDouble (((10 : Int) : ℚ) - 2936013 / 2097152) = 18035507 / 2097152 := by
    have h := roundDouble_exact 18035507 (-21) (by decide) (by norm_num)
    have e : ((18035507 : Int) : ℚ) * (2 : ℚ) ^ (-21 : Int)
        = ((10 : Int) : ℚ) - 2936013 / 2097152 := by norm_num
    rw [e] at h
    rw [h]
    norm_num
  rw [h1, max_eq_left (by norm_num)]
  have ht : roundHalfEven (((18035507 : ℚ) / 2097152)
      / (2 : ℚ) ^ ((3 : Int) - (((24 : Nat) : Int) - 1))) = 9017754 := by
    rw [roundHalfEven_tie _ 9017753 (by norm_num)]
    decide
  have h := roundBinary_eval 24 (-126) ((18035507 : ℚ) / 2097152) 3 9017754
    (by norm_num) (by norm_num [abs_of_pos]) (by norm_num [abs_of_pos]) ht
  unfold roundFloat
  rw [h]
  norm_num

/-- The fudge term for `blurPixels = 5` is `1.625`. -/
theorem fudgeIeee_five : BoxBlurAndDilateSettings.fudgeIeee 5 = 13 / 8 := by
  rw [fudgeIeee_eq, roundFloat_intCast 5 (by decide)]
  have h1 : roundFloat (((5 : Int) : ℚ) / 10) = 1 / 2 := by
    have h := roundFloat_exact 1 (-1) (by decide) (by norm_num)
    have e : ((1 : Int) : ℚ) * (2 : ℚ) ^ (-1 : Int) = ((5 : Int) : ℚ) / 10 := by norm_num
    rw [e] at h
    rw [h]
    norm_num
  rw [h1, min_eq_right (by norm_num)]
  have h2 : roundFloat (7549747 / 16777216 * (1 / 2)) = 7549747 / 33554432 := by
    have h := roundFloat_exact 7549747 (-25) (by decide) (by norm_num)
    have e : ((7549747 : Int) : ℚ) * (2 : ℚ) ^ (-25 : Int)
        = 7549747 / 16777216 * (1 / 2) := by norm_num
    rw [e] at h
    rw [h]
    norm_num
  rw [h2]
  have h := roundBinary_eval 24 (-126) ((15518925 : ℚ) / 8388608 - 7549747 / 33554432) 0
    13631488 (by norm_num) (by norm_num [abs_of_pos]) (by norm_num [abs_of_pos])
    (roundHalfEven_near _ _ (by norm_num) (by norm_num))
  unfold roundFloat
  rw [h]
  norm_num

/-- At `(10, 0.5)` five pixels are dilated. -/
theorem newIeee_dilate_ten_half :
    (BoxBlurAndDilateSettings.newIeee 10 0.5).getDilatePixels = 5 := by
  rw [(newIeee_members 10 0.5).1]
  have e : ((10 : Int) : ℚ) * 0.5 = ((5 : Int) : ℚ) := by norm_num
  rw [e, roundDouble_intCast 5 (by decide), roundDouble_half 5 (by decide) (by decide),
    toInt_eq_floor _ (by norm_num), Int.floor_eq_iff]
  norm_num

/-- At `(10, 0.5)` the blur radius is `3.375`. -/
theorem newIeee_radius_ten_half :
    (BoxBlurAndDilateSettings.newIeee 10 0.5).getBoxBlurRadius = 27 / 8 := by
  rw [(newIeee_members 10 0.5).2, newIeee_dilate_ten_half]
  have hb : ((10 : Int) - 5) = 5 := by decide
  rw [hb, fudgeIeee_five]
  have h1 : roundDouble (((5 : Int) : ℚ) - 13 / 8) = 27 / 8 := by
    have h := roundDouble_exact 27 (-3) (by decide) (by norm_num)
    have e : ((27 : Int) : ℚ) * (2 : ℚ) ^ (-3 : Int) = ((5 : Int) : ℚ) - 13 / 8 := by
      norm_num
    rw [e] at h
    rw [h]
    norm_num
  rw [h1, max_eq_left (by norm_num)]
  have h := roundFloat_exact 27 (-3) (by decide) (by norm_num)
  have e : ((27 : Int) : ℚ) * (2 : ℚ) ^ (-3 : Int) = 27 / 8 := by norm_num
  rwa [e] at h

/-! ## BoxBlurAndDilateSettings -/

/-- The argument of the conversion in the constructor is at least `1/2`. -/
theorem dilate_arg_nonneg (sizeInPixels : Int) (spread : ℚ) (hs : 0 ≤ sizeInPixels)
    (h0 : 0 ≤ spread) : (0 : ℚ) ≤ (sizeInPixels : ℚ) * spread + 1 / 2 := by
  have h : (0 : ℚ) ≤ (sizeInPixels : ℚ) := by exact_mod_cast hs
  have := mul_nonneg h h0
  linarith

/-- C4, as stated, fails on the arithmetic of the source.  At `sizeInPixels = 1` and the
`double` `spread = 0x1.fffffffffffffp-2 = (2^53 - 1) / 2^54`, the sum `spread + 0.5` is a tie
that rounds to `1.0`, so `dilatePixels` is `1`, while `floor (sizeInPixels*spread + 1/2)` is
`0`.  At `(10, 0)`, where `blurPixelsRaw = 10`, the blur radius stored is the `float`
`4508877/524288`, while `max (blurPixelsRaw - fudge) 0` with
`fudge = 1.85 - 0.45 * min 1 (blurPixelsRaw / 10)` is `8.6`. -/
theorem settings_formula_exact_fails :
    (0 : Int) ≤ 1
      ∧ (0 : ℚ) ≤ 9007199254740991 / 18014398509481984
      ∧ (9007199254740991 / 18014398509481984 : ℚ) ≤ 1
      ∧ roundDouble (9007199254740991 / 18014398509481984)
          = 9007199254740991 / 18014398509481984
      ∧ (BoxBlurAndDilateSettings.newIeee 1
          (9007199254740991 / 18014398509481984)).getDilatePixels = 1
      ∧ ⌊((1 : Int) : ℚ) * (9007199254740991 / 18014398509481984) + 1 / 2⌋ = 0
      ∧ (BoxBlurAndDilateSettings.newIeee 10 0).getDilatePixels = 0
      ∧ (BoxBlurAndDilateSettings.newIeee 10 0).getBoxBlurRadius = 4508877 / 524288
      ∧ max (((10 : Int) : ℚ) - (1.85 - 0.45 * min 1 (((10 : Int) : ℚ) / 10))) 0 = 8.6
      ∧ (BoxBlurAndDilateSettings.newIeee 10 0).getBoxBlurRadius
          ≠ max (((10 : Int) : ℚ) - (1.85 - 0.45 * min 1 (((10 : Int) : ℚ) / 10))) 0 := by
  have hsp : roundDouble (9007199254740991 / 18014398509481984)
      = 9007199254740991 / 18014398509481984 := by
    have h := roundDouble_exact 9007199254740991 (-54) (by decide) (by norm_num)
    have e : ((9007199254740991 : Int) : ℚ) * (2 : ℚ) ^ (-54 : Int)
        = 9007199254740991 / 18014398509481984 := by norm_num
    rwa [e] at h
  have hfl : ⌊((1 : Int) : ℚ) * (9007199254740991 / 18014398509481984) + 1 / 2⌋ = 0 := by
    rw [Int.floor_eq_iff]
    norm_num
  have hex : max (((10 : Int) : ℚ) - (1.85 - 0.45 * min 1 (((10 : Int) : ℚ) / 10))) 0
      = 8.6 := by
    norm_num
  refine ⟨by decide, by norm_num, by norm_num, hsp, newIeee_dilate_tie, hfl,
    newIeee_dilate_ten_zero, newIeee_radius_ten_zero, hex, ?_⟩
  rw [newIeee_radius_ten_zero, hex]
  norm_num

/-- C4, amended: for `0 <= sizeInPixels <= 2^31 - 1` and `spread` in `[0,1]`, every operation
being rounded to nearest in the type in which the source carries it out (`fl64` for `double`,
`fl32` for `float`), the constructor computes
`dilatePixels = floor (fl64 (fl64 (sizeInPixels*spread) + 1/2))`, which is
`floor (sizeInPixels*spread + 1/2)` or one more, and
`blurRadius = fl32 (max (fl64 (blurPixelsRaw - fudge)) 0)`, where
`blurPixelsRaw = sizeInPixels - dilatePixels` and
`fudge = fl32 (fl32 1.85 - fl32 (fl32 0.45 * min 1 (fl32 (fl32 blurPixelsRaw / 10))))`. -/
theorem settings_formula (sizeInPixels : Int) (spread : ℚ) (hs : 0 ≤ sizeInPixels)
    (hmax : sizeInPixels ≤ 2147483647) (h0 : 0 ≤ spread) (h1 : spread ≤ 1) :
    (BoxBlurAndDilateSettings.newIeee sizeInPixels spread).getDilatePixels
        = ⌊roundDouble (roundDouble ((sizeInPixels : ℚ) * spread) + 1 / 2)⌋
      ∧ ⌊(sizeInPixels : ℚ) * spread + 1 / 2⌋
        ≤ (BoxBlurAndDilateSettings.newIeee sizeInPixels spread).getDilatePixels
      ∧ (BoxBlurAndDilateSettings.newIeee sizeInPixels spread).getDilatePixels
        ≤ ⌊(sizeInPixels : ℚ) * spread + 1 / 2⌋ + 1
      ∧ (BoxBlurAndDilateSettings.newIeee sizeInPixels spread).getBoxBlurRadius
        = roundFloat (max (roundDouble
            (((sizeInPixels
                - (BoxBlurAndDilateSettings.newIeee sizeInPixels spread).getDilatePixels
                  : Int) : ℚ)
              - roundFloat (roundFloat 1.85 - roundFloat (roundFloat 0.45
                  * min 1 (roundFloat (roundFloat ((sizeInPixels
                      - (BoxBlurAndDilateSettings.newIeee sizeInPixels spread).getDilatePixels
                        : Int) : ℚ) / 10)))))) 0) := by
  obtain ⟨hf, hlo, hhi, _, _⟩ := dilateIeee_facts sizeInPixels spread hs hmax h0 h1
  have hd : (BoxBlurAndDilateSettings.newIeee sizeInPixels spread).getDilatePixels
      = ⌊roundDouble (roundDouble ((sizeInPixels : ℚ) * spread) + 1 / 2)⌋ := hf
  have e1 : (1.85 : ℚ) = 185 / 100 := by norm_num
  have e2 : (0.45 : ℚ) = 45 / 100 := by norm_num
  refine ⟨hd, ?_, ?_, ?_⟩
  · rw [hd]
    exact hlo
  · rw [hd]
    exact hhi
  · rw [e1, e2]
    rfl

/-- The amended C4 at `(10, 0.5)`: `dilatePixels = 5`, which is the exact
`floor (10*0.5 + 1/2)`, `blurPixelsRaw = 5`, `fudge = 1.625`, `blurRadius = 3.375`. -/
theorem settings_formula_witness :
    (0 : Int) ≤ 10 ∧ (10 : Int) ≤ 2147483647 ∧ (0 : ℚ) ≤ 0.5 ∧ (0.5 : ℚ) ≤ 1
      ∧ ⌊((10 : Int) : ℚ) * 0.5 + 1 / 2⌋
          ≤ (BoxBlurAndDilateSettings.newIeee 10 0.5).getDilatePixels
      ∧ (BoxBlurAndDilateSettings.newIeee 10 0.5).getDilatePixels = 5
      ∧ 10 - (BoxBlurAndDilateSettings.newIeee 10 0.5).getDilatePixels = 5
      ∧ BoxBlurAndDilateSettings.fudgeIeee 5 = 1.625
      ∧ (BoxBlurAndDilateSettings.newIeee 10 0.5).getBoxBlurRadius = 3.375 := by
  have hthm := settings_formula 10 0.5 (by decide) (by decide) (by norm_num) (by norm_num)
  refine ⟨by decide, by decide, by norm_num, by norm_num, hthm.2.1,
    newIeee_dilate_ten_half, ?_, ?_, ?_⟩
  · rw [newIeee_dilate_ten_half]
    decide
  · rw [fudgeIeee_five]
    norm_num
  · rw [newIeee_radius_ten_half]
    norm_num

/-- C5: for `sizeInPixels >= 0` and `spread` in `[0,1]`, `0 <= dilatePixels <= sizeInPixels`
and `blurRadius >= 0`, in exact arithmetic and, `sizeInPixels` being a 32-bit `int`, in the
`double` and `float` arithmetic of the source. -/
theorem settings_bounds (sizeInPixels : Int) (spread : ℚ) (hs : 0 ≤ sizeInPixels)
    (h0 : 0 ≤ spread) (h1 : spread ≤ 1) :
    0 ≤ (BoxBlurAndDilateSettings.new sizeInPixels spread).getDilatePixels
      ∧ (BoxBlurAndDilateSettings.new sizeInPixels spread).getDilatePixels ≤ sizeInPixels
      ∧ 0 ≤ (BoxBlurAndDilateSettings.new sizeInPixels spread).getBoxBlurRadius
      ∧ (sizeInPixels ≤ 2147483647 →
        0 ≤ (BoxBlurAndDilateSettings.newIeee sizeInPixels spread).getDilatePixels
        ∧ (BoxBlurAndDilateSettings.newIeee sizeInPixels spread).getDilatePixels ≤ sizeInPixels
        ∧ 0 ≤ (BoxBlurAndDilateSettings.newIeee sizeInPixels spread).getBoxBlurRadius) := by
  have harg := dilate_arg_nonneg sizeInPixels spread hs h0
  have hf := toInt_eq_floor _ harg
  have hsq : (0 : ℚ) ≤ (sizeInPixels : ℚ) := by exact_mod_cast hs
  have hieee : sizeInPixels ≤ 2147483647 →
      0 ≤ (BoxBlurAndDilateSettings.newIeee sizeInPixels spread).getDilatePixels
      ∧ (BoxBlurAndDilateSettings.newIeee sizeInPixels spread).getDilatePixels ≤ sizeInPixels
      ∧ 0 ≤ (BoxBlurAndDilateSettings.newIeee sizeInPixels spread).getBoxBlurRadius := by
    intro hmax
    obtain ⟨hfl, _, _, hnn, hle⟩ := dilateIeee_facts sizeInPixels spread hs hmax h0 h1
    have hd : (BoxBlurAndDilateSettings.newIeee sizeInPixels spread).getDilatePixels
        = ⌊roundDouble (roundDouble ((sizeInPixels : ℚ) * spread) + 1 / 2)⌋ := hfl
    refine ⟨?_, ?_, ?_⟩
    · rw [hd]
      exact hnn
    · rw [hd]
      exact hle
    · rw [(newIeee_members sizeInPixels spread).2]
      exact roundFloat_nonneg (le_max_right _ _)
  simp only [BoxBlurAndDilateSettings.new, BoxBlurAndDilateSettings.getDilatePixels,
    BoxBlurAndDilateSettings.getBoxBlurRadius, hf] at hieee ⊢
  refine ⟨Int.floor_nonneg.mpr harg, ?_, le_max_right _ _, hieee⟩
  have hlt : ⌊(sizeInPixels : ℚ) * spread + 1 / 2⌋ < sizeInPixels + 1 := by
    rw [Int.floor_lt]
    push_cast
    have : (sizeInPixels : ℚ) * spread ≤ (sizeInPixels : ℚ) * 1 :=
      mul_le_mul_of_nonneg_left h1 hsq
    linarith
  omega

/-- C5 at `(10, 0.5)`. -/
theorem settings_bounds_witness :
    (0 : Int) ≤ 10 ∧ (0 : ℚ) ≤ 0.5 ∧ (0.5 : ℚ) ≤ 1
      ∧ 0 ≤ (BoxBlurAndDilateSettings.new 10 0.5).getDilatePixels
      ∧ (BoxBlurAndDilateSettings.new 10 0.5).getDilatePixels ≤ 10
      ∧ 0 ≤ (BoxBlurAndDilateSettings.new 10 0.5).getBoxBlurRadius
      ∧ ((10 : Int) ≤ 2147483647 →
        0 ≤ (BoxBlurAndDilateSettings.newIeee 10 0.5).getDilatePixels
        ∧ (BoxBlurAndDilateSettings.newIeee 10 0.5).getDilatePixels ≤ 10
        ∧ 0 ≤ (BoxBlurAndDilateSettings.newIeee 10 0.5).getBoxBlurRadius) :=
  ⟨by decide, by norm_num, by norm_num,
    settings_bounds 10 0.5 (by decide) (by norm_num) (by norm_num)⟩

/-! ## DistanceMap: the ends of the ramp and the size zero branch -/

/-- C11, as stated, fails: for `size == 1` the functor writes `256`, not `0`, for the
distance `size*256 = 256`; for `size == 32768` it writes `-256` for the distance
`size*256 = 8388608`, the product `distance*256` overflowing. -/
theorem distanceMap_ramp_end_not_zero :
    (0 : Int) < 1 ∧ (256 : Int) ≥ 1 * 256
      ∧ ((DistanceMap.Output.new32 blank 1).call32 0 0 256).m_dest 0 0 = 256
      ∧ ((DistanceMap.Output.new32 blank 1).call32 0 0 256).m_dest 0 0 ≠ 0
      ∧ ((DistanceMap.Output.new32 blank 32768).call32 0 0 (32768 * 256)).m_dest 0 0
          = -256 := by
  decide

/-- C11, amended: for `1 <= size <= 32767` the `DistanceMap` output is `0` for every raw
distance strictly greater than `size*256` and at the distance `0`; at the distance `size*256`
itself it is `256`. -/
theorem distanceMap_zero_values (dest : Field) (size x y distance : Int) (h1 : 1 ≤ size)
    (h2 : size ≤ 32767) :
    (size * 256 < distance →
        ((DistanceMap.Output.new32 dest size).call32 x y distance).m_dest x y = 0)
      ∧ ((DistanceMap.Output.new32 dest size).call32 x y 0).m_dest x y = 0
      ∧ ((DistanceMap.Output.new32 dest size).call32 x y (size * 256)).m_dest x y = 256 := by
  refine ⟨?_, ?_, ?_⟩
  · intro h
    exact distanceMap_call32_beyond dest size x y distance h1 h2 h
  · rw [distanceMap_call32_ramp dest size x y 0 h1 h2 (le_refl 0) (by omega)]
    simp
  · rw [distanceMap_call32_ramp dest size x y (size * 256) h1 h2 (by omega) (le_refl _)]
    exact Int.mul_ediv_cancel_left 256 (by omega)

/-- The amended C11 at `size == 3`: `0` at the distances `769` and `0`, `256` at `768`. -/
theorem distanceMap_zero_values_witness :
    (1 : Int) ≤ 3 ∧ (3 : Int) ≤ 32767 ∧ (3 : Int) * 256 < 769
      ∧ ((DistanceMap.Output.new32 blank 3).call32 0 0 769).m_dest 0 0 = 0
      ∧ ((DistanceMap.Output.new32 blank 3).call32 0 0 0).m_dest 0 0 = 0
      ∧ ((DistanceMap.Output.new32 blank 3).call32 0 0 (3 * 256)).m_dest 0 0 = 256 :=
  ⟨by decide, by decide, by decide,
    (distanceMap_zero_values blank 3 0 0 769 (by decide) (by decide)).1 (by decide),
    (distanceMap_zero_values blank 3 0 0 769 (by decide) (by decide)).2⟩

/-- C12, as stated, fails: for `size == 2` the functor writes `256`, not `255*256`, for the
distance `size*256 = 512`; for `size == 32768` it writes `-256` for the distance
`size*256 = 8388608`, the product `distance*256` overflowing. -/
theorem distanceMap_ramp_end_not_saturated :
    (0 : Int) < 2
      ∧ ((DistanceMap.Output.new32 blank 2).call32 0 0 (2 * 256)).m_dest 0 0 = 256
      ∧ ((DistanceMap.Output.new32 blank 2).call32 0 0 (2 * 256)).m_dest 0 0 ≠ 255 * 256
      ∧ ((DistanceMap.Output.new32 blank 32768).call32 0 0 (32768 * 256)).m_dest 0 0
          = -256 := by
  decide

/-- C12, amended: for `1 <= size <= 32767` and `0 <= distance <= size*256` the `DistanceMap`
functor writes the integer quotient `distance / size`, which lies in `0..256`: it is `0` at the
distance `0` and `256` at the distance `size*256`, so the raw distances `0..size*256` are
mapped onto `0..256`, not onto `0..255*256`. -/
theorem distanceMap_ramp_range (dest : Field) (size x y distance : Int) (h1 : 1 ≤ size)
    (h2 : size ≤ 32767) (hd : 0 ≤ distance) (h : distance ≤ size * 256) :
    ((DistanceMap.Output.new32 dest size).call32 x y distance).m_dest x y = distance / size
      ∧ 0 ≤ ((DistanceMap.Output.new32 dest size).call32 x y distance).m_dest x y
      ∧ ((DistanceMap.Output.new32 dest size).call32 x y distance).m_dest x y ≤ 256
      ∧ ((DistanceMap.Output.new32 dest size).call32 x y 0).m_dest x y = 0
      ∧ ((DistanceMap.Output.new32 dest size).call32 x y (size * 256)).m_dest x y = 256 := by
  have hs : 0 < size := by omega
  have hq : distance * 256 / (size * 256) = distance / size :=
    Int.mul_ediv_mul_of_pos_left distance size (by omega)
  have hv : ((DistanceMap.Output.new32 dest size).call32 x y distance).m_dest x y
      = distance / size := by
    rw [distanceMap_call32_ramp dest size x y distance h1 h2 hd h, hq]
  refine ⟨hv, ?_, ?_, ?_, ?_⟩
  · rw [hv]
    exact Int.ediv_nonneg hd (le_of_lt hs)
  · rw [hv]
    have h3 : distance / size ≤ size * 256 / size := Int.ediv_le_ediv hs h
    rw [Int.mul_ediv_cancel_left 256 (ne_of_gt hs)] at h3
    exact h3
  · rw [distanceMap_call32_ramp dest size x y 0 h1 h2 (le_refl 0) (by omega)]
    simp
  · rw [distanceMap_call32_ramp dest size x y (size * 256) h1 h2 (by omega) (le_refl _)]
    exact Int.mul_ediv_cancel_left 256 (by omega)

/-- The amended C12 at `size == 2`, `distance == 300`: the value written is `150`. -/
theorem distanceMap_ramp_range_witness :
    (1 : Int) ≤ 2 ∧ (2 : Int) ≤ 32767 ∧ (0 : Int) ≤ 300 ∧ (300 : Int) ≤ 2 * 256
      ∧ ((DistanceMap.Output.new32 blank 2).call32 0 0 300).m_dest 0 0 = 150 :=
  ⟨by decide, by decide, by decide, by decide,
    (distanceMap_ramp_range blank 2 0 0 300 (by decide) (by decide) (by decide)
      (by decide)).1.trans (by decide)⟩

/-- C13: with `size == 0`, `DistanceMap` leaves `in(x,y) * 256` in every cell `(x,y)` of the
`width` x `height` rectangle, and its destination is the one `GrayscaleDilation` leaves with
`size == 0`. -/
theorem distanceMap_size_zero (chamfer : DistanceTransform) (inp out : Field)
    (width height x y : Int)
    (hx0 : 0 ≤ x) (hx1 : x < width) (hy0 : 0 ≤ y) (hy1 : y < height) :
    DistanceMap.run chamfer inp out width height 0 x y = inp x y * 256
      ∧ DistanceMap.run chamfer inp out width height 0
        = GrayscaleDilation.run chamfer inp out width height 0 := by
  constructor
  · simp only [DistanceMap.run, gt_iff_lt, lt_self_iff_false, if_false]
    exact scaleLoop_inside (fun a b => inp a b * 256) out width height x y hx0 hx1 hy0 hy1
  · simp only [DistanceMap.run, GrayscaleDilation.run, gt_iff_lt, lt_self_iff_false, if_false]

/-- C13 on the 2x2 buffer `[[0,128],[255,64]]`: the pixel `(1,1)` becomes `64*256`. -/
theorem distanceMap_size_zero_witness :
    (0 : Int) ≤ 1 ∧ (1 : Int) < 2
      ∧ DistanceMap.run probe sample2x2 blank 2 2 0 1 1 = 16384
      ∧ DistanceMap.run probe sample2x2 blank 2 2 0
        = GrayscaleDilation.run probe sample2x2 blank 2 2 0 :=
  ⟨by decide, by decide,
    (distanceMap_size_zero probe sample2x2 blank 2 2 1 1
      (by decide) (by decide) (by decide) (by decide)).1.trans (by decide),
    (distanceMap_size_zero probe sample2x2 blank 2 2 1 1
      (by decide) (by decide) (by decide) (by decide)).2⟩

/-! ## The cells a transform writes -/

/-- A sequence of writes either contains a write to `(a, b)` whose value is the final content
of that cell whatever the field was before, or contains none and leaves the cell alone. -/
theorem foldl_writes_cases (val : Int → Int) (l : List (Int × Int × Int)) (a b : Int) :
    (∃ c ∈ l, c.1 = a ∧ c.2.1 = b ∧ ∀ out : Field,
        l.foldl (fun f c => Field.write f c.1 c.2.1 (val c.2.2)) out a b = val c.2.2)
      ∨ ((∀ c ∈ l, ¬ (c.1 = a ∧ c.2.1 = b)) ∧ ∀ out : Field,
        l.foldl (fun f c => Field.write f c.1 c.2.1 (val c.2.2)) out a b = out a b) := by
  induction l using List.reverseRecOn with
  | nil =>
    right
    exact ⟨fun c hc => absurd hc (List.not_mem_nil c), fun _ => rfl⟩
  | append_singleton l c ih =>
    by_cases hc : c.1 = a ∧ c.2.1 = b
    · left
      refine ⟨c, List.mem_append_right _ (List.mem_singleton_self c), hc.1, hc.2, ?_⟩
      intro out
      rw [List.foldl_append]
      simp only [List.foldl_cons, List.foldl_nil]
      rw [← hc.1, ← hc.2]
      exact Field.write_same _ _ _ _
    · have hne : ¬ (a = c.1 ∧ b = c.2.1) := fun h => hc ⟨h.1.symm, h.2.symm⟩
      rcases ih with ⟨d, hd, h1, h2, hv⟩ | ⟨hnone, hv⟩
      · left
        refine ⟨d, List.mem_append_left _ hd, h1, h2, ?_⟩
        intro out
        rw [List.foldl_append]
        simp only [List.foldl_cons, List.foldl_nil]
        rw [Field.write_other _ _ _ _ _ _ hne]
        exact hv out
      · right
        refine ⟨?_, ?_⟩
        · intro d hd
          rcases List.mem_append.mp hd with hd | hd
          · exact hnone d hd
          · rw [List.mem_singleton] at hd
            rw [hd]
            exact hc
        · intro out
          rw [List.foldl_append]
          simp only [List.foldl_cons, List.foldl_nil]
          rw [Field.write_other _ _ _ _ _ _ hne]
          exact hv out

/-- The calls on a `GrayscaleDilation::Output` are writes of `value` to its destination. -/
theorem dilation_foldl_dest (l : List (Int × Int × Int)) (o : GrayscaleDilation.Output) :
    (l.foldl (fun o c => GrayscaleDilation.Output.call o c.1 c.2.1 c.2.2) o).m_dest
      = l.foldl (fun f c => Field.write f c.1 c.2.1 (o.value c.2.2)) o.m_dest := by
  induction l generalizing o with
  | nil => rfl
  | cons c l ih =>
    simp only [List.foldl_cons]
    rw [ih]
    rfl

/-- The calls on a `GrayscaleErosion::Output` are writes of `value` to its destination. -/
theorem erosion_foldl_dest (l : List (Int × Int × Int)) (o : GrayscaleErosion.Output) :
    (l.foldl (fun o c => GrayscaleErosion.Output.call o c.1 c.2.1 c.2.2) o).m_dest
      = l.foldl (fun f c => Field.write f c.1 c.2.1 (o.value c.2.2)) o.m_dest := by
  induction l generalizing o with
  | nil => rfl
  | cons c l ih =>
    simp only [List.foldl_cons]
    rw [ih]
    rfl

/-- The calls on a `DistanceMap::Output` are writes of `value32` to its destination. -/
theorem distanceMap_foldl_dest (l : List (Int × Int × Int)) (o : DistanceMap.Output) :
    (l.foldl (fun o c => DistanceMap.Output.call32 o c.1 c.2.1 c.2.2) o).m_dest
      = l.foldl (fun f c => Field.write f c.1 c.2.1 (o.value32 c.2.2)) o.m_dest := by
  induction l generalizing o with
  | nil => rfl
  | cons c l ih =>
    simp only [List.foldl_cons]
    rw [ih]
    rfl

/-- The pixels listed by `rect` are those of the rectangle. -/
theorem mem_rect (width height a b : Int) :
    (a, b) ∈ rect width height ↔ (0 ≤ a ∧ a < width) ∧ (0 ≤ b ∧ b < height) := by
  unfold rect
  rw [List.mem_flatMap]
  constructor
  · rintro ⟨j, hj, hm⟩
    rw [List.mem_map] at hm
    obtain ⟨i, hi, he⟩ := hm
    have ha : Int.ofNat i = a := congrArg Prod.fst he
    have hb : Int.ofNat j = b := congrArg Prod.snd he
    exact ⟨(mem_range_toNat width a).mp ⟨i, hi, ha⟩,
      (mem_range_toNat height b).mp ⟨j, hj, hb⟩⟩
  · rintro ⟨ha, hb⟩
    obtain ⟨i, hi, rfl⟩ := (mem_range_toNat width a).mpr ha
    obtain ⟨j, hj, rfl⟩ := (mem_range_toNat height b).mpr hb
    exact ⟨j, hj, List.mem_map.mpr ⟨i, hi, rfl⟩⟩

/-- Outside the rectangle, the two nested loops of the `size == 0` branches leave the cell
as it was. -/
theorem scaleLoop_outside (g : Field) (out : Field) (width height x y : Int)
    (h : ¬ ((0 ≤ x ∧ x < width) ∧ (0 ≤ y ∧ y < height))) :
    forLoop height (fun j o => forLoop width (fun i o => o.write i j (g i j)) o) out x y
      = out x y := by
  unfold forLoop
  apply foldl_overwrite_miss (fun (j : Nat) a b => b = Int.ofNat j ∧ 0 ≤ a ∧ a < width)
    (fun (j : Nat) acc =>
      (List.range width.toNat).foldl (fun acc i => acc.write (Int.ofNat i) (Int.ofNat j)
        (g (Int.ofNat i) (Int.ofNat j))) acc)
  · intro j acc a b hm
    apply foldl_overwrite_miss (fun (i : Nat) a b => a = Int.ofNat i ∧ b = Int.ofNat j)
      (fun (i : Nat) acc => acc.write (Int.ofNat i) (Int.ofNat j)
        (g (Int.ofNat i) (Int.ofNat j)))
    · intro i acc a b hw
      exact Field.write_other _ _ _ _ _ _ hw
    · rintro ⟨i, hi, rfl, rfl⟩
      apply hm
      exact ⟨rfl, (mem_range_toNat width _).mp ⟨i, hi, rfl⟩⟩
  · rintro ⟨j, hj, rfl, hx⟩
    apply h
    exact ⟨hx, (mem_range_toNat height _).mp ⟨j, hj, rfl⟩⟩

/-- The pixels `probe` visits are those of `rect`, in the same order. -/
theorem probe_coords (inp : Field) (width height : Int) :
    (probe inp width height).map (fun c => (c.1, c.2.1)) = rect width height := by
  simp [probe, rect, List.map_flatMap, Function.comp_def]

/-- A transform that visits each pixel of the rectangle once and no other cell has a call at
`(a, b)` exactly when `(a, b)` lies in the rectangle. -/
theorem visited_iff (l : List (Int × Int × Int)) (width height a b : Int)
    (hp : (l.map (fun c => (c.1, c.2.1))).Perm (rect width height)) :
    (∃ c ∈ l, c.1 = a ∧ c.2.1 = b) ↔ (0 ≤ a ∧ a < width) ∧ (0 ≤ b ∧ b < height) := by
  rw [← mem_rect, ← hp.mem_iff, List.mem_map]
  constructor
  · rintro ⟨c, hc, h1, h2⟩
    exact ⟨c, hc, Prod.ext h1 h2⟩
  · rintro ⟨c, hc, he⟩
    exact ⟨c, hc, congrArg Prod.fst he, congrArg Prod.snd he⟩

/-- Writes that visit each pixel of the rectangle once and no other cell: inside the
rectangle the final content does not depend on the field before, outside it is unchanged. -/
theorem writes_frame (val : Int → Int) (l : List (Int × Int × Int)) (width height a b : Int)
    (hp : (l.map (fun c => (c.1, c.2.1))).Perm (rect width height)) :
    (((0 ≤ a ∧ a < width) ∧ (0 ≤ b ∧ b < height)) → ∀ o1 o2 : Field,
        l.foldl (fun f c => Field.write f c.1 c.2.1 (val c.2.2)) o1 a b
          = l.foldl (fun f c => Field.write f c.1 c.2.1 (val c.2.2)) o2 a b)
      ∧ (¬ ((0 ≤ a ∧ a < width) ∧ (0 ≤ b ∧ b < height)) → ∀ o : Field,
        l.foldl (fun f c => Field.write f c.1 c.2.1 (val c.2.2)) o a b = o a b) := by
  have hv := visited_iff l width height a b hp
  rcases foldl_writes_cases val l a b with ⟨c, hc, h1, h2, hval⟩ | ⟨hnone, hval⟩
  · refine ⟨fun _ o1 o2 => (hval o1).trans (hval o2).symm, fun hout => ?_⟩
    exact absurd (hv.mp ⟨c, hc, h1, h2⟩) hout
  · refine ⟨fun hin => ?_, fun _ o => hval o⟩
    obtain ⟨c, hc, h1, h2⟩ := hv.mpr hin
    exact absurd ⟨h1, h2⟩ (hnone c hc)

/-- The value the `GrayscaleDilation` functor built for `size` writes at `(x, y)`. -/
theorem dilation_call_dest (dest : Field) (size x y distance : Int) :
    ((GrayscaleDilation.Output.new dest size).call x y distance).m_dest x y
      = if distance ≤ size * 256 then 255 * 256
        else if distance < size * 256 + 256 then (255 - (distance - size * 256)) * 256
        else 0 := by
  simp [GrayscaleDilation.Output.call, GrayscaleDilation.Output.new,
    GrayscaleDilation.Output.value, Field.write]

/-- The value the `GrayscaleErosion` functor built for `size` writes at `(x, y)`. -/
theorem erosion_call_dest (dest : Field) (size x y distance : Int) :
    ((GrayscaleErosion.Output.new dest size).call x y distance).m_dest x y
      = if distance ≤ size * 256 then 255 * 256
        else if distance < size * 256 + 256 then (255 - (distance - size * 256)) * 256
        else 0 := by
  simp [GrayscaleErosion.Output.call, GrayscaleErosion.Output.new,
    GrayscaleErosion.Output.value, Field.write]

/-! ## Saturated masks, the frame of the transforms, the range of the functor -/

/-- C14, as stated, fails for `size == 0`: a 1x1 mask whose cell is already `255*256` is
returned as `255*256*256 = 16711680`, whatever the distance transform. -/
theorem dilation_saturated_not_returned :
    GrayscaleDilation.run zeroDistance (fun _ _ => 255 * 256) blank 1 1 0 0 0 = 16711680
      ∧ GrayscaleDilation.run zeroDistance (fun _ _ => 255 * 256) blank 1 1 0 0 0
          ≠ 255 * 256 := by
  decide

/-- C14, amended: at a pixel `(x,y)` of the rectangle, for `size > 0`, when the distance
transform visits the pixel and reports the distance `0` throughout, `GrayscaleDilation`
leaves `255*256` whatever the input, so a mask of `255*256` comes back unchanged; for
`size == 0` it leaves `255*256` where the input is `255`, the input being scaled by 256. -/
theorem dilation_saturated (chamfer : DistanceTransform) (inp out : Field)
    (width height size x y : Int)
    (hx0 : 0 ≤ x) (hx1 : x < width) (hy0 : 0 ≤ y) (hy1 : y < height) :
    (0 < size → (∃ c ∈ chamfer inp width height, c.1 = x ∧ c.2.1 = y) →
        (∀ c ∈ chamfer inp width height, c.2.2 = 0) →
        GrayscaleDilation.run chamfer inp out width height size x y = 255 * 256)
      ∧ (inp x y = 255 →
        GrayscaleDilation.run chamfer inp out width height 0 x y = 255 * 256) := by
  constructor
  · intro hs hvis hzero
    simp only [GrayscaleDilation.run, gt_iff_lt, hs, if_true]
    rw [dilation_foldl_dest]
    rcases foldl_writes_cases (GrayscaleDilation.Output.new out size).value
        (chamfer inp width height) x y with ⟨c, hc, _, _, hval⟩ | ⟨hnone, _⟩
    · rw [hval, hzero c hc]
      have h0 : (0 : Int) ≤ size * 256 := by omega
      simp [GrayscaleDilation.Output.value, GrayscaleDilation.Output.new, h0]
    · obtain ⟨c, hc, h1, h2⟩ := hvis
      exact absurd ⟨h1, h2⟩ (hnone c hc)
  · intro hin
    simp only [GrayscaleDilation.run, gt_iff_lt, lt_self_iff_false, if_false]
    rw [scaleLoop_inside (fun a b => inp a b * 256) out width height x y hx0 hx1 hy0 hy1, hin]

/-- The amended C14 on 2x2 masks, at the pixel `(1,1)`: with `size == 3` the mask of
`255*256` is left at `255*256`, with `size == 0` the mask of `255` becomes `255*256`. -/
theorem dilation_saturated_witness :
    (0 : Int) ≤ 1 ∧ (1 : Int) < 2 ∧ (0 : Int) < 3
      ∧ GrayscaleDilation.run zeroDistance (fun _ _ => 255 * 256) blank 2 2 3 1 1 = 255 * 256
      ∧ GrayscaleDilation.run zeroDistance (fun _ _ => 255) blank 2 2 0 1 1 = 255 * 256 :=
  ⟨by decide, by decide, by decide,
    (dilation_saturated zeroDistance (fun _ _ => 255 * 256) blank 2 2 3 1 1
      (by decide) (by decide) (by decide) (by decide)).1 (by decide) (by decide) (by decide),
    (dilation_saturated zeroDistance (fun _ _ => 255) blank 2 2 0 1 1
      (by decide) (by decide) (by decide) (by decide)).2 rfl⟩

/-- C15: for `GrayscaleDilation`, `GrayscaleErosion` and `DistanceMap`, for `size >= 0` (for
`size > 0` with a distance transform that calls the output functor once for each pixel of the
rectangle and for no other cell), the content of a cell inside the `width` x `height`
rectangle after the call is the same whatever `out` held before, and a cell outside the
rectangle holds what it held before. -/
theorem transforms_frame (chamfer : DistanceTransform) (inp out : Field)
    (width height size x y : Int) (_hs : 0 ≤ size)
    (hvisit : 0 < size → ∀ f : Field,
      ((chamfer f width height).map (fun c => (c.1, c.2.1))).Perm (rect width height)) :
    (((0 ≤ x ∧ x < width) ∧ (0 ≤ y ∧ y < height)) → ∀ other : Field,
        GrayscaleDilation.run chamfer inp other width height size x y
          = GrayscaleDilation.run chamfer inp out width height size x y
        ∧ GrayscaleErosion.run chamfer inp other width height size x y
          = GrayscaleErosion.run chamfer inp out width height size x y
        ∧ DistanceMap.run chamfer inp other width height size x y
          = DistanceMap.run chamfer inp out width height size x y)
      ∧ (¬ ((0 ≤ x ∧ x < width) ∧ (0 ≤ y ∧ y < height)) →
        GrayscaleDilation.run chamfer inp out width height size x y = out x y
        ∧ GrayscaleErosion.run chamfer inp out width height size x y = out x y
        ∧ DistanceMap.run chamfer inp out width height size x y = out x y) := by
  by_cases hpos : 0 < size
  · have hD := writes_frame (GrayscaleDilation.Output.new out size).value
      (chamfer inp width height) width height x y (hvisit hpos inp)
    have hE := writes_frame (GrayscaleErosion.Output.new out size).value
      (chamfer (GrayscaleErosion.Input inp) width height) width height x y
      (hvisit hpos (GrayscaleErosion.Input inp))
    have hM := writes_frame (DistanceMap.Output.new32 out size).value32
      (chamfer inp width height) width height x y (hvisit hpos inp)
    simp only [GrayscaleDilation.run, GrayscaleErosion.run, DistanceMap.run, gt_iff_lt, hpos,
      if_true, dilation_foldl_dest, erosion_foldl_dest, distanceMap_foldl_dest]
    constructor
    · intro hin other
      exact ⟨hD.1 hin other out, hE.1 hin other out, hM.1 hin other out⟩
    · intro hout
      exact ⟨hD.2 hout out, hE.2 hout out, hM.2 hout out⟩
  · simp only [GrayscaleDilation.run, GrayscaleErosion.run, DistanceMap.run, gt_iff_lt, hpos,
      if_false]
    constructor
    · rintro ⟨⟨hx0, hx1⟩, hy0, hy1⟩ other
      refine ⟨?_, ?_, ?_⟩
      · rw [scaleLoop_inside (fun a b => inp a b * 256) other width height x y hx0 hx1 hy0 hy1,
          scaleLoop_inside (fun a b => inp a b * 256) out width height x y hx0 hx1 hy0 hy1]
      · rw [scaleLoop_inside (fun a b => (255 - inp a b) * 256) other width height x y
            hx0 hx1 hy0 hy1,
          scaleLoop_inside (fun a b => (255 - inp a b) * 256) out width height x y
            hx0 hx1 hy0 hy1]
      · rw [scaleLoop_inside (fun a b => inp a b * 256) other width height x y hx0 hx1 hy0 hy1,
          scaleLoop_inside (fun a b => inp a b * 256) out width height x y hx0 hx1 hy0 hy1]
    · intro hout
      exact ⟨scaleLoop_outside (fun a b => inp a b * 256) out width height x y hout,
        scaleLoop_outside (fun a b => (255 - inp a b) * 256) out width height x y hout,
        scaleLoop_outside (fun a b => inp a b * 256) out width height x y hout⟩

/-- C15 with `size == 1` on the 2x2 buffer `[[0,128],[255,64]]`: started from the buffer
itself or from the blank field, the pixel `(1,0)` ends up the same, and the cell `(2,0)`,
outside the rectangle, keeps the `0` it held. -/
theorem transforms_frame_witness :
    (0 : Int) ≤ 1
      ∧ GrayscaleDilation.run probe sample2x2 sample2x2 2 2 1 1 0
        = GrayscaleDilation.run probe sample2x2 blank 2 2 1 1 0
      ∧ GrayscaleErosion.run probe sample2x2 blank 2 2 1 2 0 = blank 2 0 :=
  ⟨by decide,
    (((transforms_frame probe sample2x2 blank 2 2 1 1 0 (by decide)
      (fun _ f => by rw [probe_coords])).1 (by decide)) sample2x2).1,
    ((transforms_frame probe sample2x2 blank 2 2 1 2 0 (by decide)
      (fun _ f => by rw [probe_coords])).2 (by decide)).2.1⟩

/-- C17: for `size >= 0` and raw distances `0 <= d1 <= d2`, the value the dilation functor
and the erosion functor write lies in `[0, 255*256]`, is a multiple of 256, and is not
smaller for `d1` than for `d2`. -/
theorem functor_value_invariants (dest : Field) (size x y d1 d2 : Int) (_hs : 0 ≤ size)
    (_h0 : 0 ≤ d1) (h12 : d1 ≤ d2) :
    (0 ≤ ((GrayscaleDilation.Output.new dest size).call x y d1).m_dest x y
        ∧ ((GrayscaleDilation.Output.new dest size).call x y d1).m_dest x y ≤ 255 * 256
        ∧ 256 ∣ ((GrayscaleDilation.Output.new dest size).call x y d1).m_dest x y
        ∧ ((GrayscaleDilation.Output.new dest size).call x y d2).m_dest x y
          ≤ ((GrayscaleDilation.Output.new dest size).call x y d1).m_dest x y)
      ∧ (0 ≤ ((GrayscaleErosion.Output.new dest size).call x y d1).m_dest x y
        ∧ ((GrayscaleErosion.Output.new dest size).call x y d1).m_dest x y ≤ 255 * 256
        ∧ 256 ∣ ((GrayscaleErosion.Output.new dest size).call x y d1).m_dest x y
        ∧ ((GrayscaleErosion.Output.new dest size).call x y d2).m_dest x y
          ≤ ((GrayscaleErosion.Output.new dest size).call x y d1).m_dest x y) := by
  rw [dilation_call_dest, dilation_call_dest, erosion_call_dest, erosion_call_dest]
  have key : (0 : Int) ≤ (if d1 ≤ size * 256 then 255 * 256
        else if d1 < size * 256 + 256 then (255 - (d1 - size * 256)) * 256 else 0)
      ∧ (if d1 ≤ size * 256 then 255 * 256
        else if d1 < size * 256 + 256 then (255 - (d1 - size * 256)) * 256 else 0) ≤ 255 * 256
      ∧ 256 ∣ (if d1 ≤ size * 256 then 255 * 256
        else if d1 < size * 256 + 256 then (255 - (d1 - size * 256)) * 256 else (0 : Int))
      ∧ (if d2 ≤ size * 256 then 255 * 256
        else if d2 < size * 256 + 256 then (255 - (d2 - size * 256)) * 256 else (0 : Int))
        ≤ (if d1 ≤ size * 256 then 255 * 256
        else if d1 < size * 256 + 256 then (255 - (d1 - size * 256)) * 256 else 0) := by
    refine ⟨?_, ?_, ?_, ?_⟩
    · split_ifs <;> omega
    · split_ifs <;> omega
    · split_ifs
      · exact ⟨255, by ring⟩
      · exact Dvd.intro_left _ rfl
      · exact dvd_zero _
    · split_ifs <;> omega
  exact ⟨key, key⟩

/-- C17 at `size == 1`: the distances `300` and `400` are written as `211*256` and
`111*256`. -/
theorem functor_value_invariants_witness :
    (0 : Int) ≤ 1 ∧ (0 : Int) ≤ 300 ∧ (300 : Int) ≤ 400
      ∧ ((GrayscaleDilation.Output.new blank 1).call 0 0 300).m_dest 0 0 = 211 * 256
      ∧ ((GrayscaleDilation.Output.new blank 1).call 0 0 400).m_dest 0 0 = 111 * 256
      ∧ ((GrayscaleDilation.Output.new blank 1).call 0 0 400).m_dest 0 0
          ≤ ((GrayscaleDilation.Output.new blank 1).call 0 0 300).m_dest 0 0 :=
  ⟨by decide, by decide, by decide, by decide, by decide,
    (functor_value_invariants blank 1 0 0 300 400 (by decide) (by decide) (by decide)).1.2.2.2⟩

/-! ## BoxBlurAndDilateSettings: the fudge factor and the blur radius -/

/-- The fudge factor does not grow with `blurPixels`. -/
theorem fudge_antitone (b1 b2 : Int) (h : b1 ≤ b2) :
    BoxBlurAndDilateSettings.fudge b2 ≤ BoxBlurAndDilateSettings.fudge b1 := by
  unfold BoxBlurAndDilateSettings.fudge
  have hq : (b1 : ℚ) ≤ (b2 : ℚ) := by exact_mod_cast h
  have hm : min 1 ((b1 : ℚ) / 10) ≤ min 1 ((b2 : ℚ) / 10) :=
    min_le_min (le_refl 1) (by linarith)
  linarith

/-- The fudge factor is at least `1.40`. -/
theorem fudge_ge (b : Int) : (1.40 : ℚ) ≤ BoxBlurAndDilateSettings.fudge b := by
  unfold BoxBlurAndDilateSettings.fudge
  have hm : min 1 ((b : ℚ) / 10) ≤ 1 := min_le_left _ _
  norm_num
  linarith

/-- The fudge factor is at most `1.85` for a non-negative `blurPixels`. -/
theorem fudge_le (b : Int) (hb : 0 ≤ b) : BoxBlurAndDilateSettings.fudge b ≤ 1.85 := by
  unfold BoxBlurAndDilateSettings.fudge
  have hq : (0 : ℚ) ≤ (b : ℚ) := by exact_mod_cast hb
  have hm : (0 : ℚ) ≤ min 1 ((b : ℚ) / 10) := le_min (by norm_num) (by linarith)
  norm_num
  linarith

/-- The members the constructor stores, in terms of its locals `blurPixels` and `fudge`. -/
theorem new_members (sizeInPixels : Int) (spread : ℚ) :
    (BoxBlurAndDilateSettings.new sizeInPixels spread).getDilatePixels
        = sizeInPixels - BoxBlurAndDilateSettings.blurPixels sizeInPixels spread
      ∧ (BoxBlurAndDilateSettings.new sizeInPixels spread).getBoxBlurRadius
        = max ((BoxBlurAndDilateSettings.blurPixels sizeInPixels spread : ℚ)
            - BoxBlurAndDilateSettings.fudge
                (BoxBlurAndDilateSettings.blurPixels sizeInPixels spread)) 0 := by
  constructor
  · simp only [BoxBlurAndDilateSettings.new, BoxBlurAndDilateSettings.getDilatePixels,
      BoxBlurAndDilateSettings.blurPixels]
    omega
  · rfl

/-- For `sizeInPixels >= 0` and `spread` in `[0,1]` the local `blurPixels` is not negative. -/
theorem blurPixels_nonneg (sizeInPixels : Int) (spread : ℚ) (hs : 0 ≤ sizeInPixels)
    (h0 : 0 ≤ spread) (h1 : spread ≤ 1) :
    0 ≤ BoxBlurAndDilateSettings.blurPixels sizeInPixels spread := by
  have hf := toInt_eq_floor _ (dilate_arg_nonneg sizeInPixels spread hs h0)
  have hsq : (0 : ℚ) ≤ (sizeInPixels : ℚ) := by exact_mod_cast hs
  have hlt : ⌊(sizeInPixels : ℚ) * spread + 1 / 2⌋ < sizeInPixels + 1 := by
    rw [Int.floor_lt]
    push_cast
    have : (sizeInPixels : ℚ) * spread ≤ (sizeInPixels : ℚ) * 1 :=
      mul_le_mul_of_nonneg_left h1 hsq
    linarith
  simp only [BoxBlurAndDilateSettings.blurPixels, hf]
  omega

/-- C16, as stated, fails on the `float` arithmetic of the source: at `blurPixelsRaw = 0` the
fudge factor is `1.85f = 15518925/8388608`, which is greater than `1.85`, so it neither lies
in `[1.40, 1.85]` nor equals `1.85`; and the factor does not approach its lower end
asymptotically, it reaches it at `blurPixelsRaw = 10` and stays there: it is
`2936013/2097152` at `10` and at `1000`. -/
theorem fudge_exceeds_range :
    (0 : Int) ≤ 0
      ∧ BoxBlurAndDilateSettings.fudgeIeee 0 = 15518925 / 8388608
      ∧ ¬ (BoxBlurAndDilateSettings.fudgeIeee 0 ≤ 1.85)
      ∧ BoxBlurAndDilateSettings.fudgeIeee 0 ≠ 1.85
      ∧ BoxBlurAndDilateSettings.fudgeIeee 10 = 2936013 / 2097152
      ∧ BoxBlurAndDilateSettings.fudgeIeee 1000 = BoxBlurAndDilateSettings.fudgeIeee 10 := by
  refine ⟨le_refl 0, fudgeIeee_zero, ?_, ?_, fudgeIeee_of_ten_le 10 (by decide), ?_⟩
  · rw [fudgeIeee_zero]
    norm_num
  · rw [fudgeIeee_zero]
    norm_num
  · rw [fudgeIeee_of_ten_le 1000 (by decide), fudgeIeee_of_ten_le 10 (by decide)]

/-- C16, amended: for `blurPixelsRaw >= 0` the fudge factor, computed in `float` as in the
source, lies in `[2936013/2097152, 15518925/8388608]`, the `float` results of `1.85f - 0.45f`
and of `1.85f` (about `1.4000001` and `1.85000002`), hence is strictly greater than `1.40`;
it does not grow with `blurPixelsRaw`; it is `1.85f` at `blurPixelsRaw = 0`; and it is exactly
`2936013/2097152` from `blurPixelsRaw = 10` on. -/
theorem fudge_range (b b2 : Int) (hb : 0 ≤ b) (h12 : b ≤ b2) :
    (2936013 / 2097152 : ℚ) ≤ BoxBlurAndDilateSettings.fudgeIeee b
      ∧ BoxBlurAndDilateSettings.fudgeIeee b ≤ 15518925 / 8388608
      ∧ (1.40 : ℚ) < BoxBlurAndDilateSettings.fudgeIeee b
      ∧ BoxBlurAndDilateSettings.fudgeIeee b2 ≤ BoxBlurAndDilateSettings.fudgeIeee b
      ∧ BoxBlurAndDilateSettings.fudgeIeee 0 = 15518925 / 8388608
      ∧ (10 ≤ b → BoxBlurAndDilateSettings.fudgeIeee b = 2936013 / 2097152) := by
  have hge := fudgeIeee_ge b hb
  refine ⟨hge, fudgeIeee_le b hb, ?_, fudgeIeee_antitone b b2 hb h12, fudgeIeee_zero,
    fun h => fudgeIeee_of_ten_le b h⟩
  have : (1.40 : ℚ) < 2936013 / 2097152 := by norm_num
  exact lt_of_lt_of_le this hge

/-- The amended C16 at `blurPixelsRaw = 5` and `12`: the fudge factor is `1.625`, then
`2936013/2097152`. -/
theorem fudge_range_witness :
    (0 : Int) ≤ 5 ∧ (5 : Int) ≤ 12
      ∧ BoxBlurAndDilateSettings.fudgeIeee 12 ≤ BoxBlurAndDilateSettings.fudgeIeee 5
      ∧ (1.40 : ℚ) < BoxBlurAndDilateSettings.fudgeIeee 5
      ∧ BoxBlurAndDilateSettings.fudgeIeee 5 = 1.625
      ∧ BoxBlurAndDilateSettings.fudgeIeee 12 = 2936013 / 2097152 :=
  ⟨by decide, by decide,
    (fudge_range 5 12 (by decide) (by decide)).2.2.2.1,
    (fudge_range 5 12 (by decide) (by decide)).2.2.1,
    fudgeIeee_five.trans (by norm_num),
    (fudge_range 12 12 (by decide) (by decide)).2.2.2.2.2 (by decide)⟩

/-- C18: for `sizeInPixels >= 0` and `spread` in `[0,1]`, in exact arithmetic, the blur
radius is `0` exactly when `blurPixelsRaw = sizeInPixels - dilatePixels` is at most `1`, and
it is strictly positive when `blurPixelsRaw >= 2`. -/
theorem blur_radius_zero_iff (sizeInPixels : Int) (spread : ℚ) (hs : 0 ≤ sizeInPixels)
    (h0 : 0 ≤ spread) (h1 : spread ≤ 1) :
    ((BoxBlurAndDilateSettings.new sizeInPixels spread).getBoxBlurRadius = 0
        ↔ sizeInPixels - (BoxBlurAndDilateSettings.new sizeInPixels spread).getDilatePixels ≤ 1)
      ∧ (2 ≤ sizeInPixels - (BoxBlurAndDilateSettings.new sizeInPixels spread).getDilatePixels →
        0 < (BoxBlurAndDilateSettings.new sizeInPixels spread).getBoxBlurRadius) := by
  obtain ⟨hd, hr⟩ := new_members sizeInPixels spread
  have hb : sizeInPixels - (BoxBlurAndDilateSettings.new sizeInPixels spread).getDilatePixels
      = BoxBlurAndDilateSettings.blurPixels sizeInPixels spread := by
    rw [hd]
    omega
  rw [hb, hr]
  have hnn := blurPixels_nonneg sizeInPixels spread hs h0 h1
  have hge := fudge_ge (BoxBlurAndDilateSettings.blurPixels sizeInPixels spread)
  have hle := fudge_le (BoxBlurAndDilateSettings.blurPixels sizeInPixels spread) hnn
  have hpos : 2 ≤ BoxBlurAndDilateSettings.blurPixels sizeInPixels spread →
      (0 : ℚ) < (BoxBlurAndDilateSettings.blurPixels sizeInPixels spread : ℚ)
        - BoxBlurAndDilateSettings.fudge
            (BoxBlurAndDilateSettings.blurPixels sizeInPixels spread) := by
    intro h2
    have hq : (2 : ℚ) ≤ (BoxBlurAndDilateSettings.blurPixels sizeInPixels spread : ℚ) := by
      exact_mod_cast h2
    norm_num at hle
    linarith
  constructor
  · constructor
    · intro hz
      by_contra hcon
      have h2 : 2 ≤ BoxBlurAndDilateSettings.blurPixels sizeInPixels spread := by omega
      have := lt_of_lt_of_le (hpos h2) (le_max_left _ (0 : ℚ))
      rw [hz] at this
      exact lt_irrefl _ this
    · intro hle1
      apply max_eq_right
      have hq : (BoxBlurAndDilateSettings.blurPixels sizeInPixels spread : ℚ) ≤ 1 := by
        exact_mod_cast hle1
      norm_num at hge
      linarith
  · intro h2
    exact lt_of_lt_of_le (hpos h2) (le_max_left _ _)

/-- C18 at `(10, 0.9)`, where `dilatePixels = 9` and `blurPixelsRaw = 1`, and at `(10, 0.5)`,
where `dilatePixels = 5` and `blurPixelsRaw = 5`: the blur radius is `0` in the first case
and positive in the second. -/
theorem blur_radius_zero_iff_witness :
    (0 : Int) ≤ 10 ∧ (0 : ℚ) ≤ 0.9 ∧ (0.9 : ℚ) ≤ 1
      ∧ (BoxBlurAndDilateSettings.new 10 0.9).getDilatePixels = 9
      ∧ (BoxBlurAndDilateSettings.new 10 0.9).getBoxBlurRadius = 0
      ∧ (BoxBlurAndDilateSettings.new 10 0.5).getDilatePixels = 5
      ∧ 0 < (BoxBlurAndDilateSettings.new 10 0.5).getBoxBlurRadius := by
  have h9 : (BoxBlurAndDilateSettings.new 10 0.9).getDilatePixels = 9 := by
    show toInt (((10 : Int) : ℚ) * 0.9 + 1 / 2) = 9
    rw [toInt_eq_floor _ (by norm_num), Int.floor_eq_iff]
    norm_num
  have h5 : (BoxBlurAndDilateSettings.new 10 0.5).getDilatePixels = 5 := by
    show toInt (((10 : Int) : ℚ) * 0.5 + 1 / 2) = 5
    rw [toInt_eq_floor _ (by norm_num), Int.floor_eq_iff]
    norm_num
  refine ⟨by decide, by norm_num, by norm_num, h9, ?_, h5, ?_⟩
  · apply (blur_radius_zero_iff 10 0.9 (by decide) (by norm_num) (by norm_num)).1.mpr
    rw [h9]
    decide
  · apply (blur_radius_zero_iff 10 0.5 (by decide) (by norm_num) (by norm_num)).2
    rw [h5]
    decide

/-- C19: for `sizeInPixels >= 0` and spreads `0 <= s1 <= s2 <= 1`, in exact arithmetic, the
larger spread gives at least as many dilate pixels and at most as large a blur radius. -/
theorem settings_monotone_in_spread (sizeInPixels : Int) (s1 s2 : ℚ) (hs : 0 ≤ sizeInPixels)
    (h0 : 0 ≤ s1) (h12 : s1 ≤ s2) (_h1 : s2 ≤ 1) :
    (BoxBlurAndDilateSettings.new sizeInPixels s1).getDilatePixels
        ≤ (BoxBlurAndDilateSettings.new sizeInPixels s2).getDilatePixels
      ∧ (BoxBlurAndDilateSettings.new sizeInPixels s2).getBoxBlurRadius
        ≤ (BoxBlurAndDilateSettings.new sizeInPixels s1).getBoxBlurRadius := by
  have hsq : (0 : ℚ) ≤ (sizeInPixels : ℚ) := by exact_mod_cast hs
  have hf1 := toInt_eq_floor _ (dilate_arg_nonneg sizeInPixels s1 hs h0)
  have hf2 := toInt_eq_floor _ (dilate_arg_nonneg sizeInPixels s2 hs (le_trans h0 h12))
  have hfl : ⌊(sizeInPixels : ℚ) * s1 + 1 / 2⌋ ≤ ⌊(sizeInPixels : ℚ) * s2 + 1 / 2⌋ := by
    apply Int.floor_le_floor
    have := mul_le_mul_of_nonneg_left h12 hsq
    linarith
  have hb : BoxBlurAndDilateSettings.blurPixels sizeInPixels s2
      ≤ BoxBlurAndDilateSettings.blurPixels sizeInPixels s1 := by
    simp only [BoxBlurAndDilateSettings.blurPixels, hf1, hf2]
    omega
  obtain ⟨hd1, hr1⟩ := new_members sizeInPixels s1
  obtain ⟨hd2, hr2⟩ := new_members sizeInPixels s2
  constructor
  · rw [hd1, hd2]
    omega
  · rw [hr1, hr2]
    apply max_le_max _ (le_refl 0)
    have hfu := fudge_antitone _ _ hb
    have hq : (BoxBlurAndDilateSettings.blurPixels sizeInPixels s2 : ℚ)
        ≤ (BoxBlurAndDilateSettings.blurPixels sizeInPixels s1 : ℚ) := by exact_mod_cast hb
    linarith

/-- C19 at `sizeInPixels = 10` with the spreads `0.2` and `0.5`. -/
theorem settings_monotone_in_spread_witness :
    (0 : Int) ≤ 10 ∧ (0 : ℚ) ≤ 0.2 ∧ (0.2 : ℚ) ≤ 0.5 ∧ (0.5 : ℚ) ≤ 1
      ∧ (BoxBlurAndDilateSettings.new 10 0.2).getDilatePixels
          ≤ (BoxBlurAndDilateSettings.new 10 0.5).getDilatePixels
      ∧ (BoxBlurAndDilateSettings.new 10 0.5).getBoxBlurRadius
          ≤ (BoxBlurAndDilateSettings.new 10 0.2).getBoxBlurRadius :=
  ⟨by decide, by norm_num, by norm_num, by norm_num,
    settings_monotone_in_spread 10 0.2 0.5 (by decide) (by norm_num) (by norm_num)
      (by norm_num)⟩

/-! ## DistanceMap with 32-bit arithmetic -/

/-- C20: with 32-bit wrap-around arithmetic, for `1 <= size <= 32767` and
`0 <= distance <= size*256`, the intermediate values `size*256`, `size*256 + 256` and
`distance*256` of the `DistanceMap` functor stay within `2^31 - 1` and are not wrapped, and the
value written is the integer quotient `distance / size`; while for `size = 32768` and
`distance = 8388608 <= size*256` the product `distance*256` exceeds `2^31 - 1` and the value
written, `-256`, differs from the exact `256`. -/
theorem distanceMap_int32 (dest : Field) (size x y distance : Int) (h1 : 1 ≤ size)
    (h2 : size ≤ 32767) (hd0 : 0 ≤ distance) (hd : distance ≤ size * 256) :
    (size * 256 ≤ 2147483647 ∧ wrap32 (size * 256) = size * 256)
      ∧ (size * 256 + 256 ≤ 2147483647 ∧ wrap32 (size * 256 + 256) = size * 256 + 256)
      ∧ (distance * 256 ≤ 2147483647 ∧ wrap32 (distance * 256) = distance * 256)
      ∧ (DistanceMap.Output.new32 dest size).m_size = size * 256
      ∧ (DistanceMap.Output.new32 dest size).m_sizePlusOne = size * 256 + 256
      ∧ ((DistanceMap.Output.new32 dest size).call32 x y distance).m_dest x y = distance / size
      ∧ ((DistanceMap.Output.new32 dest size).call32 x y distance).m_dest x y
          = ((DistanceMap.Output.new dest size).call x y distance).m_dest x y
      ∧ ∃ s d : Int, 32768 ≤ s ∧ s ≤ 2147483647 ∧ 0 ≤ d ∧ d ≤ 2147483647 ∧ d ≤ s * 256
          ∧ 2147483647 < d * 256
          ∧ ((DistanceMap.Output.new32 dest s).call32 x y d).m_dest x y
              ≠ ((DistanceMap.Output.new dest s).call x y d).m_dest x y := by
  have w1 : wrap32 (size * 256) = size * 256 := wrap32_of_range _ (by omega) (by omega)
  have w2 : wrap32 (size * 256 + 256) = size * 256 + 256 :=
    wrap32_of_range _ (by omega) (by omega)
  have w3 : wrap32 (distance * 256) = distance * 256 :=
    wrap32_of_range _ (by omega) (by omega)
  have hq : distance * 256 / (size * 256) = distance / size :=
    Int.mul_ediv_mul_of_pos_left distance size (by omega)
  have hq0 : 0 ≤ distance / size := Int.ediv_nonneg hd0 (by omega)
  have hq1 : distance / size ≤ 256 := by
    have h := Int.ediv_le_ediv (show (0 : Int) < size by omega) hd
    rw [Int.mul_ediv_cancel_left 256 (show size ≠ 0 by omega)] at h
    exact h
  have hv : ((DistanceMap.Output.new32 dest size).call32 x y distance).m_dest x y
      = distance / size := by
    rw [distanceMap_call32_dest, w1, w3, if_pos hd,
      Int.tdiv_eq_ediv (show (0 : Int) ≤ distance * 256 by omega)
        (show (0 : Int) ≤ size * 256 by omega), hq]
    exact wrap32_of_range _ (by omega) (by omega)
  refine ⟨⟨by omega, w1⟩, ⟨by omega, w2⟩, ⟨by omega, w3⟩, ?_, ?_, hv, ?_, ?_⟩
  · simp only [DistanceMap.Output.new32, w1]
  · simp only [DistanceMap.Output.new32, w1, w2]
  · rw [hv, distanceMap_call_dest,
      distanceMap_value_ramp dest size distance (by omega) hd0 hd, hq]
  · refine ⟨32768, 8388608, by decide, by decide, by decide, by decide, by decide, by decide,
      ?_⟩
    rw [distanceMap_call32_dest, distanceMap_call_dest,
      distanceMap_value_ramp dest 32768 8388608 (by decide) (by decide) (by decide)]
    decide

/-- C20 at `size = 32767`, `distance = 32767*256`: the 32-bit functor writes the exact
`256`. -/
theorem distanceMap_int32_witness :
    (1 : Int) ≤ 32767 ∧ (32767 : Int) ≤ 32767 ∧ (0 : Int) ≤ 8388352
      ∧ (8388352 : Int) ≤ 32767 * 256
      ∧ wrap32 (8388352 * 256) = 8388352 * 256
      ∧ ((DistanceMap.Output.new32 blank 32767).call32 0 0 8388352).m_dest 0 0 = 256 :=
  ⟨by decide, by decide, by decide, by decide,
    (distanceMap_int32 blank 32767 0 0 8388352 (by decide) (by decide) (by decide)
      (by decide)).2.2.1.2,
    (distanceMap_int32 blank 32767 0 0 8388352 (by decide) (by decide) (by decide)
      (by decide)).2.2.2.2.2.1.trans (by decide)⟩

end LayerStyles
